import Mathlib

/-!
Shallow embedding of the poker rules engine of `llm_holdem`
(`src/backend/src/llm_holdem/game/`): state models, pot accounting,
betting validation/application, blinds, turn order, deck, and the
hand-lifecycle orchestration of `GameEngine`, together with proofs of the
behavioural properties claimed for them.

Python `int` is modelled as `Int` (chip amounts, bets) and `Nat` (seat
indices, counters).  Python dicts keyed by seat are modelled as
insertion-ordered association lists, matching Python's documented dict
iteration order.  In-place mutation is modelled by explicit state passing;
a raised exception is an `Except.error` value.  The external `treys`
evaluator and the stdlib `random.Random` generator are not part of this
repository's sources; engine definitions are parameterised by a score
function and a shuffle function, so every theorem quantifies over them.
-/

namespace Holdem

/-- Card ranks, `state.py` `Rank`. -/
inductive Rank
  | r2 | r3 | r4 | r5 | r6 | r7 | r8 | r9 | rT | rJ | rQ | rK | rA
deriving DecidableEq

/-- Card suits, `state.py` `Suit`. -/
inductive Suit
  | h | d | c | s
deriving DecidableEq

/-- `state.py` `Card`. -/
structure Card where
  rank : Rank
  suit : Suit
deriving DecidableEq

/-- `state.py` `RANKS` (ascending order used to build the deck). -/
def RANKS : List Rank :=
  [.r2, .r3, .r4, .r5, .r6, .r7, .r8, .r9, .rT, .rJ, .rQ, .rK, .rA]

/-- `state.py` `SUITS`. -/
def SUITS : List Suit := [.h, .d, .c, .s]

/-- `state.py` `ActionType`. -/
inductive ActionType
  | fold | check | call | raise | post_blind
deriving DecidableEq

/-- `state.py` `Action` (the timestamp string is kept as a field). -/
structure Action where
  player_index : Nat
  action_type : ActionType
  amount : Option Int
  timestamp : String
deriving DecidableEq

/-- `state.py` `Pot`. -/
structure Pot where
  amount : Int
  eligible_players : List Nat
deriving DecidableEq

/-- `state.py` `PlayerState`.  The presentation-only fields (`name`,
`avatar_url`, `agent_id`, `is_dealer`) never influence the game logic and
are omitted. -/
structure PlayerState where
  seat_index : Nat
  chips : Int
  hole_cards : Option (List Card)
  is_folded : Bool
  is_eliminated : Bool
  is_all_in : Bool
  current_bet : Int
  has_acted : Bool
deriving DecidableEq

/-- `state.py` `HandResult`.  The descriptive strings (`hand_name`,
`hand_description`) are produced from the external `treys` classifier and
never influence control flow; they are omitted. -/
structure HandResult where
  player_index : Nat
  hand_rank : Int
deriving DecidableEq

/-- `state.py` `ShowdownResult`; `pot_distributions` entries are the
`(pot_amount, winners)` records built in `run_showdown`. -/
structure ShowdownResult where
  winners : List Nat
  hand_results : List HandResult
  pot_distributions : List (Int × List Nat)
deriving DecidableEq

/-- `state.py` `GamePhase`. -/
inductive GamePhase
  | pre_flop | flop | turn | river | showdown | between_hands
deriving DecidableEq

/-! ### Insertion-ordered dictionaries (Python `dict[int, int]`) -/

/-- A Python `dict` keyed by seat index, as an insertion-ordered
association list. -/
abbrev Dict := List (Nat × Int)

/-- `d.get(k)` as an `Option`. -/
def dictGet (d : Dict) (k : Nat) : Option Int :=
  match d with
  | [] => none
  | (k', v) :: rest => if k' = k then some v else dictGet rest k

/-- `d.get(k, 0)`. -/
def dictGetD (d : Dict) (k : Nat) : Int := (dictGet d k).getD 0

/-- `d[k] = d.get(k, 0) + v`: update in place (keeping the key's position)
or append a new key, exactly as Python dicts behave. -/
def dictAdd (d : Dict) (k : Nat) (v : Int) : Dict :=
  match d with
  | [] => [(k, v)]
  | (k', v') :: rest =>
      if k' = k then (k', v' + v) :: rest else (k', v') :: dictAdd rest k v

/-- `d[k] = v` (assignment). -/
def dictSet (d : Dict) (k : Nat) (v : Int) : Dict :=
  match d with
  | [] => [(k, v)]
  | (k', v') :: rest =>
      if k' = k then (k', v) :: rest else (k', v') :: dictSet rest k v

/-- `k in d`. -/
def dictMem (d : Dict) (k : Nat) : Bool :=
  match d with
  | [] => false
  | (k', _) :: rest => k' = k || dictMem rest k

/-- Sum of a dict's values. -/
def valSum (d : Dict) : Int := (d.map Prod.snd).sum

/-- `set.add(x)` for a Python `set[int]` modelled as a duplicate-free
list. -/
def setInsert (s : List Nat) (x : Nat) : List Nat :=
  if x ∈ s then s else s ++ [x]

/-! ### PotManager (`pot.py`) -/

/-- The mutable state of `PotManager`: the pot list (index 0 = main pot)
and the per-seat cumulative contribution ledger. -/
structure PotState where
  pots : List Pot
  contributions : Dict
deriving DecidableEq

/-- `PotManager.__init__` / `PotManager.reset`. -/
def PotState.init : PotState := ⟨[⟨0, []⟩], []⟩

/-- `PotManager.total`. -/
def potsTotal (s : PotState) : Int := (s.pots.map Pot.amount).sum

/-- Total of the contribution ledger. -/
def ledgerSum (s : PotState) : Int := valSum s.contributions

/-- `PotManager.add_bet`.  (`self._pots[0]` on an empty pot list would be
an `IndexError`; the pot list is non-empty in every reachable state, and
the `[]` branch below leaves the state unchanged.) -/
def addBet (s : PotState) (seat : Nat) (amount : Int) : PotState :=
  if amount ≤ 0 then s
  else
    match s.pots with
    | [] => s
    | p :: rest =>
        { pots :=
            { p with
              amount := p.amount + amount,
              eligible_players :=
                if seat ∈ p.eligible_players then p.eligible_players
                else p.eligible_players ++ [seat] } :: rest,
          contributions := dictAdd s.contributions seat amount }

/-- `sorted(l)` for seat lists. -/
def sortNat (l : List Nat) : List Nat := l.insertionSort (· ≤ ·)

/-- `sorted(l)` for amount lists. -/
def sortInt (l : List Int) : List Int := l.insertionSort (· ≤ ·)

/-- `max(l)` for a Python list known non-empty (`max([])` would raise;
the `[]` branch returns 0, mirroring the guarded call site). -/
def listMax (l : List Int) : Int :=
  match l with
  | [] => 0
  | x :: xs => xs.foldl max x

/-- One band of `calculate_side_pots`' level loop: each active player's
contribution clipped to `(prev_level, level]`, plus the band's eligible
players, in ledger order. -/
def bandContrib (active : List Nat) (prev level : Int) : Dict → Int × List Nat
  | [] => (0, [])
  | pc :: rest =>
      let tailr := bandContrib active prev level rest
      if pc.1 ∈ active then
        let player_contrib := min (pc.2 - prev) (level - prev)
        if player_contrib > 0 then (player_contrib + tailr.1, pc.1 :: tailr.2)
        else tailr
      else tailr

/-- The `for level in all_in_levels` loop of `calculate_side_pots`. -/
def buildLevelPots (contributions : Dict) (active : List Nat) :
    Int → List Int → List Pot
  | _, [] => []
  | prev, level :: rest =>
      let band := bandContrib active prev level contributions
      (if band.1 > 0 then [⟨band.1, sortNat band.2⟩] else [])
        ++ buildLevelPots contributions active level rest

/-- The "remaining pot" pass of `calculate_side_pots`: contributions in
excess of the highest all-in level, from active players only. -/
def excessContrib (active : List Nat) (maxLevel : Int) : Dict → Int × List Nat
  | [] => (0, [])
  | pc :: rest =>
      let tailr := excessContrib active maxLevel rest
      if pc.1 ∈ active then
        let excess := pc.2 - maxLevel
        if excess > 0 then (excess + tailr.1, pc.1 :: tailr.2) else tailr
      else tailr

/-- Total contribution of players not in `active_players`. -/
def foldedTotal (contributions : Dict) (active : List Nat) : Int :=
  (contributions.map (fun pc => if pc.1 ∈ active then 0 else pc.2)).sum

/-- `PotManager.calculate_side_pots`. -/
def calculateSidePots (s : PotState) (all_in_amounts : Dict)
    (active_players : List Nat) : PotState :=
  if all_in_amounts = [] then
    { pots := [⟨potsTotal s, sortNat active_players⟩],
      contributions := s.contributions }
  else if s.contributions = [] then s
  else
    let all_in_levels := sortInt (all_in_amounts.map Prod.snd).dedup
    let levelPots := buildLevelPots s.contributions active_players 0 all_in_levels
    let max_all_in := listMax all_in_levels
    let remaining := excessContrib active_players max_all_in s.contributions
    let pots := levelPots ++
      (if remaining.1 > 0 then [⟨remaining.1, sortNat remaining.2⟩] else [])
    let folded := foldedTotal s.contributions active_players
    let pots :=
      if folded > 0 ∧ pots ≠ [] then
        match pots with
        | [] => []
        | p :: rest => { p with amount := p.amount + folded } :: rest
      else pots
    { pots := if pots = [] then [⟨0, []⟩] else pots,
      contributions := s.contributions }

/-- The inner per-winner loop of `PotManager.distribute` for one pot:
`winnings[winner] += share + (1 if j < remainder else 0)`. -/
def creditLoop (share remainder : Int) : List Nat → Nat → Dict → Dict
  | [], _, w => w
  | x :: xs, j, w =>
      creditLoop share remainder xs (j + 1)
        (dictAdd w x (share + if (j : Int) < remainder then 1 else 0))

/-- `PotManager.distribute` restricted to a single pot with a non-empty
winner list: integer share plus odd chips to the first winners. -/
def distributeOne (w : Dict) (amount : Int) (pot_winners : List Nat) : Dict :=
  creditLoop (amount.fdiv pot_winners.length)
    (amount.fmod pot_winners.length) pot_winners 0 w

/-- The pot loop of `PotManager.distribute` (pots missing a winner entry
or given an empty winner list are skipped with a warning). -/
def distributeGo (w : Dict) : List Pot → List (List Nat) → Dict
  | [], _ => w
  | _ :: _, [] => w
  | pot :: pots, ws :: wss =>
      let w' := if ws = [] then w else distributeOne w pot.amount ws
      distributeGo w' pots wss

/-- `PotManager.distribute`. -/
def distribute (s : PotState) (winners_per_pot : List (List Nat)) : Dict :=
  distributeGo [] s.pots winners_per_pot

/-- `PotManager.distribute_simple`. -/
def distributeSimple (s : PotState) (winners : List Nat) : Dict :=
  distribute s (List.replicate s.pots.length winners)

/-! ### BettingManager (`betting.py`) -/

/-- The round state of `BettingManager`; `_players_acted` is a Python
`set[int]`, modelled as a duplicate-free list. -/
structure BettingState where
  current_bet : Int
  min_raise : Int
  last_raiser : Option Nat
  actions_this_round : List Action
  players_acted : List Nat
deriving DecidableEq

/-- `BettingManager.new_round` (and `__init__`, which is `new_round 0`). -/
def newRound (big_blind : Int) : BettingState :=
  ⟨big_blind, big_blind, none, [], []⟩

/-- Non-folded, non-all-in, non-eliminated. -/
def actionable (p : PlayerState) : Bool :=
  !p.is_folded && !p.is_all_in && !p.is_eliminated

/-- `BettingManager.get_valid_actions`. -/
def getValidActions (bm : BettingState) (p : PlayerState) : List ActionType :=
  if p.is_folded || p.is_all_in || p.is_eliminated then []
  else
    let amount_to_call := bm.current_bet - p.current_bet
    [ActionType.fold]
      ++ (if amount_to_call ≤ 0 then [ActionType.check] else [ActionType.call])
      ++ (if p.chips > amount_to_call then [ActionType.raise] else [])

/-- `BettingManager.get_call_amount`. -/
def getCallAmount (bm : BettingState) (p : PlayerState) : Int :=
  min (max 0 (bm.current_bet - p.current_bet)) p.chips

/-- `BettingManager.get_min_raise_to` (the `player` argument is unused in
the source as well). -/
def getMinRaiseTo (bm : BettingState) (_player : PlayerState) : Int :=
  bm.current_bet + bm.min_raise

/-- `BettingManager.get_max_raise_to`. -/
def getMaxRaiseTo (_bm : BettingState) (p : PlayerState) : Int :=
  p.current_bet + p.chips

/-- The error messages produced by `validate_action`. -/
inductive EMsg
  | cannotAct | notValid | missingAmount | belowMin | aboveMax
deriving DecidableEq

/-- `BettingManager.validate_action`; `(true, none)` is `(True, "")`. -/
def validateAction (bm : BettingState) (p : PlayerState) (ty : ActionType)
    (amount : Option Int) : Bool × Option EMsg :=
  let valid_actions := getValidActions bm p
  if valid_actions = [] then (false, some .cannotAct)
  else if ty ∉ valid_actions then (false, some .notValid)
  else if ty = .raise then
    match amount with
    | none => (false, some .missingAmount)
    | some a =>
        let min_raise_to := getMinRaiseTo bm p
        let max_raise_to := getMaxRaiseTo bm p
        if a < min_raise_to ∧ a ≠ max_raise_to then (false, some .belowMin)
        else if a > max_raise_to then (false, some .aboveMax)
        else (true, none)
  else (true, none)

/-- The common tail of `apply_action`: set `has_acted`, record the seat in
`_players_acted`, and append the `Action` to the round log. -/
def finishAction (bm : BettingState) (p : PlayerState) (ty : ActionType)
    (actAmount : Option Int) (ts : String) :
    BettingState × PlayerState × Action :=
  let p := { p with has_acted := true }
  let act : Action := ⟨p.seat_index, ty, actAmount, ts⟩
  ({ bm with
      players_acted := setInsert bm.players_acted p.seat_index,
      actions_this_round := bm.actions_this_round ++ [act] },
   p, act)

/-- `BettingManager.apply_action`.  A raised `InvalidActionError` is an
`Except.error` carrying the message together with the (unmodified)
betting and player state observable after the exception. -/
def bmApplyAction (bm : BettingState) (p : PlayerState) (ty : ActionType)
    (amount : Option Int) (ts : String) :
    Except (Option EMsg × BettingState × PlayerState)
      (BettingState × PlayerState × Action) :=
  let v := validateAction bm p ty amount
  if v.1 = false then .error (v.2, bm, p)
  else
    match ty with
    | .fold => .ok (finishAction bm { p with is_folded := true } .fold (some 0) ts)
    | .check => .ok (finishAction bm p .check (some 0) ts)
    | .call =>
        let call_amount := getCallAmount bm p
        let p' := { p with
          chips := p.chips - call_amount,
          current_bet := p.current_bet + call_amount }
        let p' := if p'.chips = 0 then { p' with is_all_in := true } else p'
        .ok (finishAction bm p' .call (some call_amount) ts)
    | .raise =>
        match amount with
        | none => .error (some .missingAmount, bm, p)
        | some raise_to =>
            let additional := raise_to - p.current_bet
            let p' := { p with
              chips := p.chips - additional,
              current_bet := raise_to }
            let raise_increment := raise_to - bm.current_bet
            let bm' := { bm with
              min_raise :=
                if raise_increment > bm.min_raise then raise_increment
                else bm.min_raise,
              current_bet := raise_to,
              last_raiser := some p.seat_index,
              players_acted := [] }
            let p' := if p'.chips = 0 then { p' with is_all_in := true } else p'
            .ok (finishAction bm' p' .raise (some additional) ts)
    | .post_blind => .error (v.2, bm, p)

/-- `BettingManager.is_round_complete`. -/
def isRoundComplete (bm : BettingState) (players : List PlayerState) : Bool :=
  let active_players := players.filter actionable
  if active_players.length ≤ 1 then true
  else
    active_players.all (fun p => bm.players_acted.contains p.seat_index)
      && active_players.all (fun p => p.current_bet == bm.current_bet)

/-- `BettingManager.count_active_players`. -/
def countActivePlayers (players : List PlayerState) : Nat :=
  (players.filter (fun p => !p.is_folded && !p.is_eliminated)).length

/-- `BettingManager.count_actionable_players`. -/
def countActionablePlayers (players : List PlayerState) : Nat :=
  (players.filter actionable).length

/-! ### BlindManager (`blinds.py`) -/

/-- `DEFAULT_BLIND_LEVELS`. -/
def DEFAULT_BLIND_LEVELS : List (Int × Int) :=
  [(10, 20), (20, 40), (40, 80), (75, 150), (150, 300), (300, 600),
   (500, 1000), (1000, 2000)]

/-- `DEFAULT_HANDS_PER_LEVEL`. -/
def DEFAULT_HANDS_PER_LEVEL : Nat := 10

/-- The state of `BlindManager`. -/
structure BlindState where
  levels : List (Int × Int)
  hands_per_level : Nat
  current_level : Nat
  hands_at_current_level : Nat
deriving DecidableEq

/-- `BlindManager.__init__` (`levels or list(DEFAULT_BLIND_LEVELS)`: a
missing or empty schedule falls back to the default). -/
def blindInit (levels : List (Int × Int)) (hands_per_level : Nat) : BlindState :=
  ⟨if levels = [] then DEFAULT_BLIND_LEVELS else levels, hands_per_level, 0, 0⟩

/-- `BlindManager.small_blind` (`_levels[_current_level][0]`; the level
index is in range in every reachable state). -/
def smallBlind (b : BlindState) : Int := (b.levels.getD b.current_level (0, 0)).1

/-- `BlindManager.big_blind`. -/
def bigBlind (b : BlindState) : Int := (b.levels.getD b.current_level (0, 0)).2

/-- `BlindManager.is_max_level` (`current_level >= len(levels) - 1`). -/
def isMaxLevel (b : BlindState) : Bool := b.levels.length - 1 ≤ b.current_level

/-- `BlindManager.advance_hand`; returns the new state and whether the
blinds increased. -/
def advanceHand (b : BlindState) : BlindState × Bool :=
  let b := { b with hands_at_current_level := b.hands_at_current_level + 1 }
  if b.hands_per_level ≤ b.hands_at_current_level ∧ isMaxLevel b = false then
    ({ b with current_level := b.current_level + 1, hands_at_current_level := 0 },
     true)
  else (b, false)

/-- The posting labels of `get_blind_posting`. -/
inductive BlindLabel
  | small_blind | big_blind
deriving DecidableEq

/-- `BlindManager.get_blind_posting`. -/
def getBlindPosting (b : BlindState) (sb_seat bb_seat : Nat)
    (sb_stack bb_stack : Int) : List (Nat × Int × BlindLabel) :=
  let sb_amount := min (smallBlind b) sb_stack
  let bb_amount := min (bigBlind b) bb_stack
  (if sb_amount > 0 then [(sb_seat, sb_amount, BlindLabel.small_blind)] else [])
    ++ (if bb_amount > 0 then [(bb_seat, bb_amount, BlindLabel.big_blind)] else [])

/-! ### TurnManager (`turn.py`) -/

/-- The bounded clockwise search shared by `_next_active_seat` and
`advance_dealer`: up to `fuel` steps of `current = (current + 1) % n`,
returning the first seat found in `active`. -/
def nasGo (n : Nat) (active : List Nat) : Nat → Nat → Option Nat
  | 0, _ => none
  | fuel + 1, cur =>
      let c := (cur + 1) % n
      if c ∈ active then some c else nasGo n active fuel c

/-- `TurnManager._next_active_seat` (fallback: `from_seat`). -/
def nextActiveSeat (n : Nat) (from_seat : Nat) (active : List Nat) : Nat :=
  (nasGo n active n from_seat).getD from_seat

/-- `TurnManager._get_active_seats` (a Python set; a duplicate-free list
here, so that its length is the set's cardinality). -/
def activeSeatsOf (players : List PlayerState) : List Nat :=
  ((players.filter (fun p => !p.is_eliminated)).map PlayerState.seat_index).dedup

/-- `TurnManager.advance_dealer` (returns the new dealer position). -/
def advanceDealer (n : Nat) (dealer : Nat) (players : List PlayerState) : Nat :=
  let active := activeSeatsOf players
  if active = [] then dealer
  else (nasGo n active n dealer).getD dealer

/-- `TurnManager.get_blind_positions`. -/
def getBlindPositions (n : Nat) (dealer : Nat) (players : List PlayerState) :
    Nat × Nat :=
  let active := activeSeatsOf players
  if active.length = 2 then
    (dealer, nextActiveSeat n dealer active)
  else
    let sb := nextActiveSeat n dealer active
    (sb, nextActiveSeat n sb active)

/-! ### Deck (`dealer.py`) -/

/-- The deck state: card sequence, dealt-count cursor, and the state of
the seeded generator (`random.Random` is external to the repository; its
state is an abstract `Nat` evolved by a caller-supplied `Shuffler`). -/
structure DeckState where
  cards : List Card
  dealt_count : Nat
  rng : Nat
deriving DecidableEq

/-- A deterministic model of `random.Random.shuffle`: from a generator
state and a card list, the permuted list and the successor state. -/
abbrev Shuffler := Nat → List Card → List Card × Nat

/-- The 52-card ordered deck built by `Deck.reset`
(`[Card(rank, suit) for suit in SUITS for rank in RANKS]`). -/
def orderedDeck : List Card :=
  (SUITS.map (fun su => RANKS.map (fun r => (⟨r, su⟩ : Card)))).flatten

/-- `Deck.__init__(seed)` (which calls `reset`). -/
def deckInit (seed : Nat) : DeckState := ⟨orderedDeck, 0, seed⟩

/-- `Deck.reset` (the generator state is kept). -/
def deckReset (d : DeckState) : DeckState :=
  { d with cards := orderedDeck, dealt_count := 0 }

/-- `Deck.shuffle`: permute only the undealt suffix. -/
def deckShuffle (shuf : Shuffler) (d : DeckState) : DeckState :=
  let remaining := d.cards.drop d.dealt_count
  let r := shuf d.rng remaining
  { d with cards := d.cards.take d.dealt_count ++ r.1, rng := r.2 }

/-- `Deck.remaining`. -/
def deckRemaining (d : DeckState) : Nat := d.cards.length - d.dealt_count

/-- The `ValueError`s raised by the deck. -/
inductive DeckErr
  | dealCount | notEnough
deriving DecidableEq

/-- `Deck.deal`. -/
def deal (d : DeckState) (count : Nat) : Except DeckErr (List Card × DeckState) :=
  if count < 1 then .error .dealCount
  else if deckRemaining d < count then .error .notEnough
  else
    .ok ((d.cards.drop d.dealt_count).take count,
      { d with dealt_count := d.dealt_count + count })

/-- `Deck.deal_one`. -/
def dealOne (d : DeckState) : Except DeckErr (Card × DeckState) :=
  match deal d 1 with
  | .error e => .error e
  | .ok (c :: _, d') => .ok (c, d')
  | .ok ([], _) => .error .notEnough

/-- `Deck.burn` (identical to `deal_one`; the card is discarded by the
caller). -/
def burn (d : DeckState) : Except DeckErr (Card × DeckState) := dealOne d

/-- The round-robin assignment of `deal_to_players`: in each round every
player receives the next card in sequence. -/
def dealToPlayersPure (np : Nat) (cards : List Card) : Nat → List (List Card)
  | 0 => List.replicate np []
  | cpp + 1 =>
      List.zipWith List.cons (cards.take np)
        (dealToPlayersPure np (cards.drop np) cpp)

/-- `Deck.deal_to_players`. -/
def dealToPlayers (d : DeckState) (num_players cards_per_player : Nat) :
    Except DeckErr (List (List Card) × DeckState) :=
  let total := num_players * cards_per_player
  if deckRemaining d < total then .error .notEnough
  else
    .ok (dealToPlayersPure num_players (d.cards.drop d.dealt_count) cards_per_player,
      { d with dealt_count := d.dealt_count + total })

/-- `Deck.deal_community` (burn one card first when `burn` is set). -/
def dealCommunity (d : DeckState) (count : Nat) (doBurn : Bool) :
    Except DeckErr (List Card × DeckState) :=
  if doBurn then
    match burn d with
    | .error e => .error e
    | .ok (_, d') => deal d' count
  else deal d count

/-- `Deck.peek`. -/
def peek (d : DeckState) (count : Nat) : Except DeckErr (List Card) :=
  if deckRemaining d < count then .error .notEnough
  else .ok ((d.cards.drop d.dealt_count).take count)

/-- One operation of the deck interface, for determinism traces. -/
inductive DeckOp
  | reset
  | shuffle
  | deal (count : Nat)
  | dealOne
  | burn
  | dealToPlayers (np cpp : Nat)
  | dealCommunity (count : Nat) (doBurn : Bool)
  | peek (count : Nat)
deriving DecidableEq

/-- Run one deck operation, returning the cards it produced (or the error
it raised, leaving the deck as the exception left it) and the next deck
state. -/
def deckStep (shuf : Shuffler) (d : DeckState) :
    DeckOp → Except DeckErr (List Card) × DeckState
  | .reset => (.ok [], deckReset d)
  | .shuffle => (.ok [], deckShuffle shuf d)
  | .deal n =>
      match deal d n with
      | .ok (cs, d') => (.ok cs, d')
      | .error e => (.error e, d)
  | .dealOne =>
      match dealOne d with
      | .ok (c, d') => (.ok [c], d')
      | .error e => (.error e, d)
  | .burn =>
      match burn d with
      | .ok (c, d') => (.ok [c], d')
      | .error e => (.error e, d)
  | .dealToPlayers np cpp =>
      match dealToPlayers d np cpp with
      | .ok (hands, d') => (.ok hands.flatten, d')
      | .error e => (.error e, d)
  | .dealCommunity n b =>
      match dealCommunity d n b with
      | .ok (cs, d') => (.ok cs, d')
      | .error e => (.error e, d)
  | .peek n => (peek d n, d)

/-- The card sequence produced by a deck driven through a sequence of
operations. -/
def deckTrace (shuf : Shuffler) (d : DeckState) :
    List DeckOp → List (Except DeckErr (List Card))
  | [] => []
  | op :: ops =>
      let r := deckStep shuf d op
      r.1 :: deckTrace shuf r.2 ops

/-! ### Hand evaluation (`evaluator.py`)

The numeric strength score comes from the external `treys` library
(`_evaluator.evaluate(board, hole)`), which is not part of this
repository; it is a caller-supplied deterministic function, so every
theorem below holds for all of them. -/

/-- A deterministic model of `treys.Evaluator.evaluate` (board, hole). -/
abbrev ScoreFn := List Card → List Card → Int

/-- The engine's errors: a propagated `InvalidActionError`, a deck
`ValueError`, the card-count `ValueError` of `evaluate_hand`, an
out-of-range seat lookup (`IndexError`), and the
`award_pot_to_last_player` precondition `ValueError`. -/
inductive EngErr
  | invalidAction (m : Option EMsg)
  | deckErr (e : DeckErr)
  | badCardCount
  | indexError
  | notOneActive (n : Nat)
deriving DecidableEq

/-- `evaluate_hand`, reduced to the numeric rank (the descriptive strings
never influence the game). -/
def evaluateHandRank (score : ScoreFn) (hole board : List Card) :
    Except EngErr Int :=
  if hole.length ≠ 2 then .error .badCardCount
  else if board.length < 3 ∨ 5 < board.length then .error .badCardCount
  else .ok (score board hole)

/-- The evaluation loop of `compare_hands`, in dict (insertion) order. -/
def evalAll (score : ScoreFn) (board : List Card) :
    List (Nat × List Card) → Except EngErr (List HandResult)
  | [] => .ok []
  | (seat, hole) :: rest =>
      match evaluateHandRank score hole board with
      | .error e => .error e
      | .ok r =>
          match evalAll score board rest with
          | .error e => .error e
          | .ok rs => .ok (⟨seat, r⟩ :: rs)

/-- `compare_hands`: evaluate every player, then stable-sort ascending by
`hand_rank` (lower is better in treys). -/
def compareHands (score : ScoreFn) (hands : List (Nat × List Card))
    (board : List Card) : Except EngErr (List HandResult) :=
  match evalAll score board hands with
  | .error e => .error e
  | .ok results =>
      .ok (results.insertionSort (fun a b => a.hand_rank ≤ b.hand_rank))

/-- `determine_winners`. -/
def determineWinners (score : ScoreFn) (hands : List (Nat × List Card))
    (board : List Card) : Except EngErr (List Nat × List HandResult) :=
  if hands = [] then .ok ([], [])
  else
    match compareHands score hands board with
    | .error e => .error e
    | .ok results =>
        match results with
        | [] => .ok ([], [])
        | best :: _ =>
            .ok ((results.filter (fun r => r.hand_rank == best.hand_rank)).map
                   HandResult.player_index,
                 results)

/-! ### GameEngine (`engine.py`) -/

/-- The state of `GameEngine` (with `TurnManager`'s and `BlindManager`'s
state inlined; `game_id`/`status` are presentation-only and omitted). -/
structure EngineState where
  players : List PlayerState
  num_seats : Nat
  blind : BlindState
  dealer : Nat
  bm : BettingState
  pm : PotState
  deck : DeckState
  hand_number : Nat
  phase : GamePhase
  community_cards : List Card
  all_hand_actions : List Action
  showdown_result : Option ShowdownResult
  all_in_amounts : Dict
deriving DecidableEq

/-- Sum of chip stacks across all seats. -/
def chipsSum (players : List PlayerState) : Int :=
  (players.map PlayerState.chips).sum

/-- The per-hand player reset at the top of `start_hand`. -/
def resetForHand (p : PlayerState) : PlayerState :=
  if p.is_eliminated then p
  else
    { p with
      is_folded := false, is_all_in := false, current_bet := 0,
      hole_cards := none, has_acted := false }

/-- One posting of the `_post_blinds` loop. -/
def postOne (st : List PlayerState × PotState × Dict × List Action)
    (posting : Nat × Int × BlindLabel) :
    Except EngErr (List PlayerState × PotState × Dict × List Action) :=
  let (players, pm, allIn, acts) := st
  let (seat, amount, _label) := posting
  match players.get? seat with
  | none => .error .indexError
  | some player =>
      let player := { player with chips := player.chips - amount, current_bet := amount }
      let pa :=
        if player.chips = 0 then
          ({ player with is_all_in := true }, dictSet allIn seat amount)
        else (player, allIn)
      .ok (players.set seat pa.1, addBet pm seat amount, pa.2,
        acts ++ [⟨seat, .post_blind, some amount, ""⟩])

/-- The `_post_blinds` posting loop. -/
def postBlindsLoop (st : List PlayerState × PotState × Dict × List Action) :
    List (Nat × Int × BlindLabel) →
    Except EngErr (List PlayerState × PotState × Dict × List Action)
  | [] => .ok st
  | posting :: rest =>
      match postOne st posting with
      | .error e => .error e
      | .ok st' => postBlindsLoop st' rest

/-- `_deal_hole_cards`' assignment of one hand to each non-eliminated
player, in seat order. -/
def assignHoleCards : List PlayerState → List (List Card) → List PlayerState
  | [], _ => []
  | p :: rest, hands =>
      if p.is_eliminated then p :: assignHoleCards rest hands
      else
        match hands with
        | [] => p :: assignHoleCards rest []
        | h :: hs => { p with hole_cards := some h } :: assignHoleCards rest hs

/-- `GameEngine._deal_hole_cards`. -/
def dealHoleCards (players : List PlayerState) (deck : DeckState) :
    Except EngErr (List PlayerState × DeckState) :=
  let active := players.filter (fun p => !p.is_eliminated)
  if active = [] then .ok (players, deck)
  else
    match dealToPlayers deck active.length 2 with
    | .error e => .error (.deckErr e)
    | .ok (hands, deck') => .ok (assignHoleCards players hands, deck')

/-- `GameEngine.start_hand`. -/
def startHand (shuf : Shuffler) (s : EngineState) : Except EngErr EngineState :=
  let players := s.players.map resetForHand
  let deck := deckShuffle shuf (deckReset s.deck)
  let dealer := advanceDealer s.num_seats s.dealer players
  let sbbb := getBlindPositions s.num_seats dealer players
  match players.get? sbbb.1, players.get? sbbb.2 with
  | some sb_player, some bb_player =>
      match
        postBlindsLoop (players, PotState.init, [], [])
          (getBlindPosting s.blind sbbb.1 sbbb.2 sb_player.chips bb_player.chips)
      with
      | .error e => .error e
      | .ok (players, pm, allIn, actions) =>
          match dealHoleCards players deck with
          | .error e => .error e
          | .ok (players, deck) =>
              .ok { s with
                players := players, pm := pm, deck := deck, dealer := dealer,
                hand_number := s.hand_number + 1, phase := .pre_flop,
                community_cards := [], all_hand_actions := actions,
                showdown_result := none, all_in_amounts := allIn,
                bm := newRound (bigBlind s.blind) }
  | _, _ => .error .indexError

/-- `GameEngine.apply_action`. -/
def engineApplyAction (s : EngineState) (seat : Nat) (ty : ActionType)
    (amount : Option Int) (ts : String) : Except EngErr (EngineState × Action) :=
  match s.players.get? seat with
  | none => .error .indexError
  | some player =>
      match bmApplyAction s.bm player ty amount ts with
      | .error (m, _, _) => .error (.invalidAction m)
      | .ok (bm, player, act) =>
          let allIn :=
            if player.is_all_in && !(dictMem s.all_in_amounts seat) then
              dictSet s.all_in_amounts seat player.current_bet
            else s.all_in_amounts
          let pm :=
            match act.amount with
            | some a => if a > 0 then addBet s.pm seat a else s.pm
            | none => s.pm
          .ok ({ s with
              players := s.players.set seat player, bm := bm,
              all_in_amounts := allIn, pm := pm,
              all_hand_actions := s.all_hand_actions ++ [act] },
            act)

/-- `GameEngine.advance_phase`. -/
def advancePhase (s : EngineState) : Except EngErr EngineState :=
  let players := s.players.map (fun p => { p with current_bet := 0, has_acted := false })
  let active_seats :=
    (players.filter (fun p => !p.is_folded && !p.is_eliminated)).map
      PlayerState.seat_index
  let pm :=
    if s.all_in_amounts ≠ [] then
      calculateSidePots s.pm s.all_in_amounts active_seats
    else s.pm
  match s.phase with
  | .pre_flop =>
      match dealCommunity s.deck 3 true with
      | .error e => .error (.deckErr e)
      | .ok (cs, deck) =>
          .ok { s with
            players := players, pm := pm, deck := deck, phase := .flop,
            community_cards := s.community_cards ++ cs, bm := newRound 0 }
  | .flop =>
      match dealCommunity s.deck 1 true with
      | .error e => .error (.deckErr e)
      | .ok (cs, deck) =>
          .ok { s with
            players := players, pm := pm, deck := deck, phase := .turn,
            community_cards := s.community_cards ++ cs, bm := newRound 0 }
  | .turn =>
      match dealCommunity s.deck 1 true with
      | .error e => .error (.deckErr e)
      | .ok (cs, deck) =>
          .ok { s with
            players := players, pm := pm, deck := deck, phase := .river,
            community_cards := s.community_cards ++ cs, bm := newRound 0 }
  | .river => .ok { s with players := players, pm := pm, phase := .showdown }
  | _ => .ok { s with players := players, pm := pm }

/-- Python truthiness of the `hole_cards` field (`None` and `[]` are both
falsy). -/
def holeTruthy : Option (List Card) → Bool
  | none => false
  | some l => !l.isEmpty

/-- The start of `run_showdown` before any result is produced: set the
phase and recalculate side pots one final time. -/
def showdownPreamble (s : EngineState) : EngineState :=
  let active_seats :=
    (s.players.filter (fun p => !p.is_folded && !p.is_eliminated)).map
      PlayerState.seat_index
  let pm :=
    if s.all_in_amounts ≠ [] then
      calculateSidePots s.pm s.all_in_amounts active_seats
    else s.pm
  { s with phase := .showdown, pm := pm }

/-- The `players_hands` dict gathered by `run_showdown`. -/
def gatherHands (players : List PlayerState) : List (Nat × List Card) :=
  players.filterMap (fun p =>
    if !p.is_folded && !p.is_eliminated && holeTruthy p.hole_cards then
      some (p.seat_index, p.hole_cards.getD [])
    else none)

/-- The per-pot winner determination of `run_showdown`: the best rank
among the pot's eligible players, falling back to `winners[:1]`. -/
def potWinners (results : List HandResult) (winners : List Nat) (pot : Pot) :
    List Nat :=
  let eligible_results :=
    results.filter (fun r => r.player_index ∈ pot.eligible_players)
  match eligible_results with
  | [] => winners.take 1
  | best :: _ =>
      (eligible_results.filter (fun r => r.hand_rank == best.hand_rank)).map
        HandResult.player_index

/-- `self._players[seat].chips += amount` (out of range: no-op here, an
`IndexError` in Python; all credited seats are in range in reachable
states). -/
def creditChips : List PlayerState → Nat → Int → List PlayerState
  | [], _, _ => []
  | p :: rest, 0, amount => { p with chips := p.chips + amount } :: rest
  | p :: rest, n + 1, amount => p :: creditChips rest n amount

/-- The winnings-crediting loop shared by `run_showdown` and
`award_pot_to_last_player`. -/
def applyWinnings (players : List PlayerState) (w : Dict) : List PlayerState :=
  w.foldl (fun ps kv => creditChips ps kv.1 kv.2) players

/-- `GameEngine.run_showdown`. -/
def runShowdown (score : ScoreFn) (s : EngineState) :
    Except EngErr (EngineState × ShowdownResult) :=
  let s := showdownPreamble s
  let players_hands := gatherHands s.players
  if players_hands = [] then .ok (s, ⟨[], [], []⟩)
  else
    match determineWinners score players_hands s.community_cards with
    | .error e => .error e
    | .ok (winners, hand_results) =>
        let winners_per_pot := s.pm.pots.map (potWinners hand_results winners)
        let pot_distributions :=
          s.pm.pots.map (fun pot => (pot.amount, potWinners hand_results winners pot))
        let winnings := distribute s.pm winners_per_pot
        let result : ShowdownResult := ⟨winners, hand_results, pot_distributions⟩
        .ok ({ s with
            players := applyWinnings s.players winnings,
            showdown_result := some result },
          result)

/-- `GameEngine.award_pot_to_last_player`. -/
def awardPotToLastPlayer (s : EngineState) : Except EngErr (EngineState × Nat) :=
  let active := s.players.filter (fun p => !p.is_folded && !p.is_eliminated)
  match active with
  | [winner] =>
      let winnings := distributeSimple s.pm [winner.seat_index]
      .ok ({ s with
          players := applyWinnings s.players winnings,
          phase := .between_hands },
        winner.seat_index)
  | _ => .error (.notOneActive active.length)

/-- `GameEngine.end_hand`. -/
def endHand (s : EngineState) : EngineState :=
  { s with
    phase := .between_hands,
    players := s.players.map (fun p =>
      if p.chips = 0 ∧ p.is_eliminated = false then { p with is_eliminated := true }
      else p),
    blind := (advanceHand s.blind).1 }

/-- One legal in-hand transition: a validated player action via
`GameEngine.apply_action`, or a phase advance. -/
inductive HandStep : EngineState → EngineState → Prop
  | act (s s' : EngineState) (seat : Nat) (ty : ActionType) (amount : Option Int)
      (ts : String) (a : Action)
      (h : engineApplyAction s seat ty amount ts = .ok (s', a)) : HandStep s s'
  | phase (s s' : EngineState) (h : advancePhase s = .ok s') : HandStep s s'

/-- A (possibly empty) sequence of legal in-hand transitions. -/
inductive HandTrace : EngineState → EngineState → Prop
  | refl (s : EngineState) : HandTrace s s
  | tail (s s' s'' : EngineState) (htr : HandTrace s s') (hst : HandStep s' s'') :
      HandTrace s s''

/-! ### Auxiliary definitions used only to state and prove the theorems -/

/-- Specification of the amounts credited by `creditLoop` at positions
`j, j+1, ...` for `k` winners. -/
def payoutSum (share remainder : Int) : Nat → Nat → Int
  | _, 0 => 0
  | j, k + 1 =>
      (share + if (j : Int) < remainder then 1 else 0) +
        payoutSum share remainder (j + 1) k

/-- The per-player view of the level loop of `calculate_side_pots`: the
clipped amounts one contribution `c` adds across the successive bands. -/
def clipSumP (prev : Int) (levels : List Int) (c : Int) : Int :=
  match levels with
  | [] => 0
  | l :: ls =>
      (if 0 < min (c - prev) (l - prev) then min (c - prev) (l - prev) else 0) +
        clipSumP l ls c

/-- Seat indices agree with list positions — the engine indexes
`self._players[seat_index]`, so this holds for every table the engine is
constructed with (seats `0..N-1` in order). -/
def seatConsistent (players : List PlayerState) : Prop :=
  ∀ pr ∈ players.enum, pr.2.seat_index = pr.1

/-- The fields of a player that hole-card dealing leaves untouched. -/
def coreOf (p : PlayerState) :
    Nat × Int × Bool × Bool × Bool × Int × Bool :=
  (p.seat_index, p.chips, p.is_folded, p.is_all_in, p.is_eliminated,
   p.current_bet, p.has_acted)

/-- The in-hand state invariant maintained by the engine between legal
actions: seat-index consistency, a non-empty pot list whose total equals
the contribution ledger's total with positive ledger entries, a faithful
all-in record (non-negative amounts, the seat really is all-in, alive and
a positive contributor), sane bounds for every player who can still act,
and non-negative betting-round state. -/
def INV (s : EngineState) : Prop :=
  seatConsistent s.players ∧
  s.pm.pots ≠ [] ∧
  potsTotal s.pm = ledgerSum s.pm ∧
  (∀ pc ∈ s.pm.contributions, 0 < pc.2) ∧
  (∀ pv ∈ s.all_in_amounts, 0 ≤ pv.2 ∧
    ∃ p, s.players.get? pv.1 = some p ∧ p.is_all_in = true ∧
      p.is_folded = false ∧ p.is_eliminated = false) ∧
  (∀ pv ∈ s.all_in_amounts,
    ∃ c, dictGet s.pm.contributions pv.1 = some c ∧ 0 < c) ∧
  (∀ p ∈ s.players, actionable p = true →
    0 < p.chips ∧ 0 ≤ p.current_bet ∧ p.current_bet ≤ s.bm.current_bet) ∧
  0 ≤ s.bm.min_raise ∧ 0 ≤ s.bm.current_bet

/-- The well-formedness of a table at `start_hand` time: seats 0..N-1 in
order, at least two non-eliminated players each holding chips, a sane
current blind level, and a dealer button in range. -/
def StartWF (s : EngineState) : Prop :=
  s.num_seats = s.players.length ∧
  seatConsistent s.players ∧
  2 ≤ (s.players.filter (fun p => !p.is_eliminated)).length ∧
  (∀ p ∈ s.players, p.is_eliminated = false → 0 < p.chips) ∧
  0 ≤ smallBlind s.blind ∧ smallBlind s.blind ≤ bigBlind s.blind ∧
  s.dealer < s.num_seats

/-- The facts carried through the `_post_blinds` loop at `start_hand`:
the in-hand invariant's player/pot/all-in clauses relative to the big
blind `big`, plus conservation of `base = Σ chips + Σ pot.amount`. -/
def BlindMid (big base : Int) (P : List PlayerState) (pm : PotState)
    (allIn : Dict) : Prop :=
  seatConsistent P ∧
  pm.pots ≠ [] ∧
  potsTotal pm = ledgerSum pm ∧
  (∀ pc ∈ pm.contributions, 0 < pc.2) ∧
  (∀ pv ∈ allIn, 0 ≤ pv.2 ∧
    ∃ p, P.get? pv.1 = some p ∧ p.is_all_in = true ∧
      p.is_folded = false ∧ p.is_eliminated = false) ∧
  (∀ pv ∈ allIn, ∃ c, dictGet pm.contributions pv.1 = some c ∧ 0 < c) ∧
  (∀ p ∈ P, actionable p = true →
    0 < p.chips ∧ 0 ≤ p.current_bet ∧ p.current_bet ≤ big) ∧
  chipsSum P + potsTotal pm = base

/-- A score function used for concrete evaluations (any one works: the
theorems quantify over all of them). -/
def c2Score : ScoreFn := fun _ _ => 0

/-- A concrete engine state in which every player has folded: the
pathological `run_showdown` call with no live hole cards. -/
def c2State : EngineState :=
  ⟨[⟨0, 500, some [⟨.rA, .s⟩, ⟨.rK, .s⟩], true, false, false, 0, true⟩,
    ⟨1, 470, some [⟨.r2, .h⟩, ⟨.r7, .d⟩], true, false, false, 0, true⟩],
   2, blindInit [] 10, 1, newRound 20, ⟨[⟨30, [0, 1]⟩], [(0, 20), (1, 10)]⟩,
   deckInit 3, 1, .river, [], [], none, []⟩

/-- A trivial deterministic shuffle model for concrete hand runs. -/
def c1Shuf : Shuffler := fun r l => (l, r)

/-- A score function for concrete hand runs. -/
def c1Score : ScoreFn := fun _ _ => 0

/-- A fresh heads-up table: seats 0 and 1 with 1000 chips each, default
blinds, dealer at 0, between hands. -/
def c1s0 : EngineState :=
  ⟨[⟨0, 1000, none, false, false, false, 0, false⟩,
    ⟨1, 1000, none, false, false, false, 0, false⟩],
   2, blindInit [] 10, 0, newRound 0, PotState.init, deckInit 7, 0,
   .between_hands, [], [], none, []⟩

/-- The state after `start_hand()` on `c1s0`. -/
def c1s1 : EngineState :=
  match startHand c1Shuf c1s0 with
  | .ok s => s
  | .error _ => c1s0

/-- The state after seat 1 (the small blind) folds. -/
def c1s2 : EngineState :=
  match engineApplyAction c1s1 1 ActionType.fold none "" with
  | .ok (s, _) => s
  | .error _ => c1s1

/-- The state after the pot is awarded to seat 0. -/
def c1s3 : EngineState :=
  match awardPotToLastPlayer c1s2 with
  | .ok (s, _) => s
  | .error _ => c1s2

end Holdem

namespace Holdem

/-! ### Generic dictionary and list lemmas -/

theorem valSum_nil : valSum [] = 0 := rfl

theorem valSum_dictAdd (d : Dict) (k : Nat) (v : Int) :
    valSum (dictAdd d k v) = valSum d + v := by
  induction d with
  | nil => simp [dictAdd, valSum]
  | cons hd tl ih =>
      by_cases h : hd.1 = k
      · simp [dictAdd, h, valSum]; ring
      · simp only [dictAdd, if_neg h, valSum, List.map_cons, List.sum_cons] at ih ⊢
        rw [ih]; ring

theorem dictGetD_dictAdd_self (d : Dict) (k : Nat) (v : Int) :
    dictGetD (dictAdd d k v) k = dictGetD d k + v := by
  induction d with
  | nil => simp [dictAdd, dictGetD, dictGet]
  | cons hd tl ih =>
      by_cases h : hd.1 = k
      · simp [dictAdd, h, dictGetD, dictGet]
      · simp [dictAdd, h, dictGetD, dictGet]
        exact ih

theorem dictGetD_dictAdd_other (d : Dict) (k k' : Nat) (v : Int) (h : k ≠ k') :
    dictGetD (dictAdd d k v) k' = dictGetD d k' := by
  induction d with
  | nil => simp [dictAdd, dictGetD, dictGet, h]
  | cons hd tl ih =>
      by_cases hh : hd.1 = k
      · subst hh
        simp [dictAdd, dictGetD, dictGet, fun hc : hd.1 = k' => h hc]
      · by_cases hk' : hd.1 = k'
        · simp [dictAdd, hh, dictGetD, dictGet, hk', Ne.symm h]
        · simp [dictAdd, hh, dictGetD, dictGet, hk']
          exact ih

/-! ### C3: the concrete A=100/B=300/C=500 side-pot example -/

/-- C3: with contributions A=100 (all-in), B=300 (all-in), C=500 over
active players {A,B,C}, `calculate_side_pots` produces exactly the pots
300/{A,B,C}, 400/{B,C}, 200/{C} in that order, summing to 900. -/
theorem side_pots_concrete_example :
    (calculateSidePots
        (addBet (addBet (addBet PotState.init 0 100) 1 300) 2 500)
        [(0, 100), (1, 300)] [0, 1, 2]).pots =
      [⟨300, [0, 1, 2]⟩, ⟨400, [1, 2]⟩, ⟨200, [2]⟩] ∧
    potsTotal (calculateSidePots
        (addBet (addBet (addBet PotState.init 0 100) 1 300) 2 500)
        [(0, 100), (1, 300)] [0, 1, 2]) = 900 := by
  constructor
  · rfl
  · rfl

/-! ### C7: deterministic shuffling -/

/-- C7: two decks constructed with the same seed and driven through the
same operation sequence produce identical card sequences at every step
(for every deterministic shuffle function). -/
theorem deck_trace_deterministic (shuf : Shuffler) (seed1 seed2 : Nat)
    (ops : List DeckOp) (h : seed1 = seed2) :
    deckTrace shuf (deckInit seed1) ops = deckTrace shuf (deckInit seed2) ops := by
  subst h; rfl

/-- Witness for `deck_trace_deterministic` at seed 42 and a concrete
operation sequence. -/
theorem deck_trace_deterministic_witness :
    deckTrace (fun r l => (l.reverse, r + 1)) (deckInit 42)
        [DeckOp.shuffle, DeckOp.deal 5, DeckOp.burn, DeckOp.dealCommunity 3 true] =
      deckTrace (fun r l => (l.reverse, r + 1)) (deckInit 42)
        [DeckOp.shuffle, DeckOp.deal 5, DeckOp.burn, DeckOp.dealCommunity 3 true] :=
  deck_trace_deterministic (fun r l => (l.reverse, r + 1)) 42 42
    [DeckOp.shuffle, DeckOp.deal 5, DeckOp.burn, DeckOp.dealCommunity 3 true] rfl

/-! ### C9: blind postings are clipped to the stack -/

/-- C9 counterexample: with a zero small-blind stack, `get_blind_posting`
returns no small-blind posting at all (the clipped amount 0 is omitted
rather than returned), so the claim's "returns, for each of the small and
big blind, a posting" fails as stated. -/
theorem blind_posting_zero_stack_counterexample :
    getBlindPosting (blindInit [] 10) 0 1 0 1000 = [(1, 20, BlindLabel.big_blind)] ∧
    ∀ e ∈ getBlindPosting (blindInit [] 10) 0 1 0 1000,
      e.2.2 ≠ BlindLabel.small_blind := by
  constructor
  · rfl
  · decide

/-- C9 (amended): whenever the clipped amounts `min(scheduled, stack)` are
positive, `get_blind_posting` returns exactly the two postings with those
clipped amounts; a blind whose clipped amount is not positive is omitted. -/
theorem blind_posting_min_clip (b : BlindState) (sb_seat bb_seat : Nat)
    (sb_stack bb_stack : Int) (hsb : 0 < min (smallBlind b) sb_stack)
    (hbb : 0 < min (bigBlind b) bb_stack) :
    getBlindPosting b sb_seat bb_seat sb_stack bb_stack =
      [(sb_seat, min (smallBlind b) sb_stack, BlindLabel.small_blind),
       (bb_seat, min (bigBlind b) bb_stack, BlindLabel.big_blind)] := by
  unfold getBlindPosting
  simp [hsb, hbb]

/-- Witness for `blind_posting_min_clip`: a big blind holding only 5 chips
against a 10/20 level posts exactly 5. -/
theorem blind_posting_min_clip_witness :
    getBlindPosting (blindInit [] 10) 0 1 1000 5 =
      [(0, 10, BlindLabel.small_blind), (1, 5, BlindLabel.big_blind)] :=
  (blind_posting_min_clip (blindInit [] 10) 0 1 1000 5 (by decide) (by decide)).trans
    (by decide)

/-! ### C10: `apply_action` is atomic on invalid actions -/

/-- C10: whenever `validate_action` rejects an action,
`BettingManager.apply_action` raises `InvalidActionError` carrying the
validation message, and the observable betting state and player state are
exactly the ones passed in — no field was modified before the raise. -/
theorem bm_apply_action_atomic_on_invalid (bm : BettingState) (p : PlayerState)
    (ty : ActionType) (amount : Option Int) (ts : String)
    (h : (validateAction bm p ty amount).1 = false) :
    bmApplyAction bm p ty amount ts =
      Except.error ((validateAction bm p ty amount).2, bm, p) := by
  unfold bmApplyAction
  simp [h]

/-- Witness for `bm_apply_action_atomic_on_invalid`: a folded player
attempting to check. -/
theorem bm_apply_action_atomic_witness :
    bmApplyAction (newRound 20) ⟨0, 100, none, true, false, false, 0, false⟩
        ActionType.check none "" =
      Except.error
        ((validateAction (newRound 20) ⟨0, 100, none, true, false, false, 0, false⟩
            ActionType.check none).2,
         newRound 20, ⟨0, 100, none, true, false, false, 0, false⟩) :=
  bm_apply_action_atomic_on_invalid (newRound 20)
    ⟨0, 100, none, true, false, false, 0, false⟩ ActionType.check none "" (by decide)

/-! ### C2: `run_showdown` with no live hole cards -/

/-- C2 counterexample: in a state where no non-folded, non-eliminated
player holds hole cards, `run_showdown` does not raise — it returns a
`ShowdownResult` with an empty winners list. -/
theorem run_showdown_no_hands_counterexample :
    (∀ p ∈ c2State.players,
      ¬(p.is_folded = false ∧ p.is_eliminated = false ∧
        holeTruthy p.hole_cards = true)) ∧
    runShowdown c2Score c2State = .ok (showdownPreamble c2State, ⟨[], [], []⟩) := by
  constructor
  · decide
  · rfl

/-- C2 (amended): when no non-folded, non-eliminated player holds hole
cards, `run_showdown` returns (rather than raising) a `ShowdownResult`
with empty winners, after the phase/side-pot preamble. -/
theorem run_showdown_empty_hands_ok (score : ScoreFn) (s : EngineState)
    (h : gatherHands s.players = []) :
    runShowdown score s = .ok (showdownPreamble s, ⟨[], [], []⟩) := by
  unfold runShowdown
  have hp : (showdownPreamble s).players = s.players := rfl
  simp [hp, h]

/-- Witness for `run_showdown_empty_hands_ok` on the all-folded state. -/
theorem run_showdown_empty_hands_ok_witness :
    runShowdown c2Score c2State = .ok (showdownPreamble c2State, ⟨[], [], []⟩) :=
  run_showdown_empty_hands_ok c2Score c2State (by decide)

/-! ### C5: round-completion characterisation -/

/-- C5: `is_round_complete` is true iff at most one actionable player
remains, or every actionable player has acted since the last raise and
has matched the table's current bet; and applying a (validated) raise
resets the acted set to exactly the raiser. -/
theorem round_complete_characterization (bm : BettingState)
    (players : List PlayerState) :
    (isRoundComplete bm players = true ↔
      countActionablePlayers players ≤ 1 ∨
        ∀ p ∈ players, actionable p = true →
          p.seat_index ∈ bm.players_acted ∧ p.current_bet = bm.current_bet) ∧
    (∀ (p : PlayerState) (a : Int) (ts : String) (bm' : BettingState)
        (p' : PlayerState) (act : Action),
        bmApplyAction bm p ActionType.raise (some a) ts = .ok (bm', p', act) →
        bm'.players_acted = [p.seat_index]) := by
  constructor
  · unfold isRoundComplete countActionablePlayers
    by_cases hl : (players.filter actionable).length ≤ 1
    · simp [hl]
    · simp only [if_neg hl]
      rw [or_iff_right hl]
      simp only [Bool.and_eq_true, List.all_eq_true, List.mem_filter,
        List.contains, List.elem_eq_mem, decide_eq_true_eq, beq_iff_eq]
      constructor
      · rintro ⟨h1, h2⟩ p hp hact
        exact ⟨h1 p ⟨hp, hact⟩, h2 p ⟨hp, hact⟩⟩
      · intro hall
        exact ⟨fun x hx => (hall x hx.1 hx.2).1, fun x hx => (hall x hx.1 hx.2).2⟩
  · intro p a ts bm' p' act h
    by_cases hv : (validateAction bm p ActionType.raise (some a)).1 = false
    · unfold bmApplyAction at h
      simp [hv] at h
    · have hv' : (validateAction bm p ActionType.raise (some a)).1 = true := by
        simpa using hv
      unfold bmApplyAction at h
      simp only [hv', Bool.true_eq_false, if_false, finishAction] at h
      cases h
      split <;> simp [setInsert, apply_ite PlayerState.seat_index]

/-- Witness for `round_complete_characterization`: a two-seat round where
both players have acted and matched, and a concrete raise clearing the
acted set. -/
theorem round_complete_characterization_witness :
    (isRoundComplete ⟨20, 20, none, [], [0, 1]⟩
        [⟨0, 980, none, false, false, false, 20, true⟩,
         ⟨1, 980, none, false, false, false, 20, true⟩] = true) ∧
    ∀ (bm' : BettingState) (p' : PlayerState) (act : Action),
      bmApplyAction ⟨20, 20, none, [], [0, 1]⟩
          ⟨0, 980, none, false, false, false, 20, true⟩
          ActionType.raise (some 40) "" = .ok (bm', p', act) →
      bm'.players_acted = [0] := by
  constructor
  · exact (round_complete_characterization ⟨20, 20, none, [], [0, 1]⟩
      [⟨0, 980, none, false, false, false, 20, true⟩,
       ⟨1, 980, none, false, false, false, 20, true⟩]).1.mpr (by decide)
  · intro bm' p' act h
    exact (round_complete_characterization ⟨20, 20, none, [], [0, 1]⟩
      [⟨0, 980, none, false, false, false, 20, true⟩,
       ⟨1, 980, none, false, false, false, 20, true⟩]).2
      ⟨0, 980, none, false, false, false, 20, true⟩ 40 "" bm' p' act h

/-! ### C6: raise amount validation -/

/-- C6: for a player for whom raising is a valid action, a raise to `a` is
accepted iff `a` is at least the minimum raise-to or exactly the player's
all-in amount, and does not exceed the all-in amount; in particular a
raise strictly below the minimum is rejected unless it exactly equals the
all-in amount, and a raise above the all-in amount is always rejected. -/
theorem validate_raise_min_max (bm : BettingState) (p : PlayerState)
    (hr : ActionType.raise ∈ getValidActions bm p) (a : Int) :
    ((validateAction bm p ActionType.raise (some a)).1 = true ↔
      (getMinRaiseTo bm p ≤ a ∨ a = getMaxRaiseTo bm p) ∧
        a ≤ getMaxRaiseTo bm p) := by
  have hne : getValidActions bm p ≠ [] := by
    intro hh; rw [hh] at hr; simp at hr
  unfold validateAction
  rw [if_neg hne, if_neg (not_not_intro hr), if_pos rfl]
  by_cases h1 : a < getMinRaiseTo bm p ∧ a ≠ getMaxRaiseTo bm p
  · simp only [if_pos h1]
    simp only [Bool.false_eq_true, false_iff]
    omega
  · by_cases h2 : a > getMaxRaiseTo bm p
    · simp only [if_neg h1, if_pos h2]
      simp only [Bool.false_eq_true, false_iff]
      omega
    · simp only [if_neg h1, if_neg h2]
      simp only [true_iff]
      omega

/-- Witness for `validate_raise_min_max`: raising to exactly the minimum
raise-to is accepted. -/
theorem validate_raise_min_max_witness :
    (validateAction (newRound 20) ⟨0, 980, none, false, false, false, 20, false⟩
        ActionType.raise (some 40)).1 = true :=
  (validate_raise_min_max (newRound 20)
      ⟨0, 980, none, false, false, false, 20, false⟩ (by decide) 40).mpr (by decide)

/-! ### C8: pot distribution -/

theorem creditLoop_valSum (share remainder : Int) :
    ∀ (xs : List Nat) (j : Nat) (w : Dict),
      valSum (creditLoop share remainder xs j w) =
        valSum w + payoutSum share remainder j xs.length := by
  intro xs
  induction xs with
  | nil => intro j w; simp [creditLoop, payoutSum]
  | cons x xs ih =>
      intro j w
      simp only [creditLoop, List.length_cons, payoutSum]
      rw [ih, valSum_dictAdd]
      ring

theorem payoutSum_eval (share remainder : Int) :
    ∀ (k j : Nat),
      payoutSum share remainder j k =
        k * share + max 0 (min (remainder - j) k) := by
  intro k
  induction k with
  | zero =>
      intro j
      simp only [payoutSum, Nat.cast_zero, CharP.cast_eq_zero, zero_mul, zero_add]
      omega
  | succ k ih =>
      intro j
      simp only [payoutSum]
      rw [ih (j + 1)]
      have e1 : ((k + 1 : Nat) : Int) * share = (k : Int) * share + share := by
        push_cast; ring
      rw [e1]
      push_cast
      split_ifs <;> omega

theorem distributeOne_valSum (w : Dict) (a : Int) (ws : List Nat) (h : ws ≠ []) :
    valSum (distributeOne w a ws) = valSum w + a := by
  unfold distributeOne
  rw [creditLoop_valSum, payoutSum_eval]
  have hlen : 1 ≤ ws.length := List.length_pos.mpr h
  have hpos : (0 : Int) < (ws.length : Int) := by exact_mod_cast hlen
  have h1 : 0 ≤ a.fmod (ws.length : Int) := Int.fmod_nonneg' a hpos
  have h2 : a.fmod (ws.length : Int) < (ws.length : Int) :=
    Int.fmod_lt_of_pos a hpos
  have h3 : ((ws.length : Int)) * (a.fdiv (ws.length : Int)) +
      a.fmod (ws.length : Int) = a := Int.fdiv_add_fmod a _
  omega

theorem creditLoop_getD_notmem (share remainder : Int) :
    ∀ (xs : List Nat) (j : Nat) (w : Dict) (x : Nat), x ∉ xs →
      dictGetD (creditLoop share remainder xs j w) x = dictGetD w x := by
  intro xs
  induction xs with
  | nil => intro j w x _; rfl
  | cons y ys ih =>
      intro j w x h
      simp only [List.mem_cons, not_or] at h
      simp only [creditLoop]
      rw [ih _ _ _ h.2, dictGetD_dictAdd_other _ _ _ _ (Ne.symm h.1)]

theorem creditLoop_getD_once (share remainder : Int) (x : Nat) :
    ∀ (l1 l2 : List Nat) (j : Nat) (w : Dict), x ∉ l1 → x ∉ l2 →
      dictGetD (creditLoop share remainder (l1 ++ x :: l2) j w) x =
        dictGetD w x + share +
          (if ((j + l1.length : Nat) : Int) < remainder then 1 else 0) := by
  intro l1
  induction l1 with
  | nil =>
      intro l2 j w _ h2
      simp only [List.nil_append, creditLoop]
      rw [creditLoop_getD_notmem _ _ _ _ _ _ h2, dictGetD_dictAdd_self]
      simp [add_assoc]
  | cons y ys ih =>
      intro l2 j w h1 h2
      simp only [List.mem_cons, not_or] at h1
      simp only [List.cons_append, creditLoop, List.append_eq]
      rw [ih _ _ _ h1.2 h2, dictGetD_dictAdd_other _ _ _ _ (Ne.symm h1.1)]
      have hidx : j + 1 + ys.length = j + (y :: ys).length := by
        simp; omega
      rw [hidx]

theorem distributeGo_valSum :
    ∀ (pots : List Pot) (wpp : List (List Nat)) (w : Dict),
      pots.length = wpp.length → (∀ l ∈ wpp, l ≠ []) →
      valSum (distributeGo w pots wpp) = valSum w + (pots.map Pot.amount).sum := by
  intro pots
  induction pots with
  | nil => intro wpp w _ _; cases wpp <;> simp [distributeGo]
  | cons pot pots ih =>
      intro wpp w hlen hne
      cases wpp with
      | nil => simp at hlen
      | cons ws wss =>
          simp only [distributeGo]
          have hws : ws ≠ [] := hne ws (by simp)
          rw [if_neg hws,
            ih wss _ (by simpa using hlen) (fun l hl => hne l (by simp [hl])),
            distributeOne_valSum _ _ _ hws]
          simp only [List.map_cons, List.sum_cons]
          ring

/-- C8: for a pot with a non-empty list of `k` winners, `distribute`
credits each winner (appearing once at position `j`) with
`amount // k` plus one extra chip when `j < amount % k` (Python floor
division and modulus are `Int.fdiv`/`Int.fmod`), the pot's payouts sum
exactly to the pot amount, and across the pot loop the total payout is
the sum of the pot amounts. -/
theorem distribute_shares (w : Dict) (a : Int) (ws : List Nat) (hne : ws ≠ []) :
    valSum (distributeOne w a ws) = valSum w + a ∧
    (∀ (l1 l2 : List Nat) (x : Nat), ws = l1 ++ x :: l2 → x ∉ l1 → x ∉ l2 →
      dictGetD (distributeOne w a ws) x =
        dictGetD w x + a.fdiv ws.length +
          (if (l1.length : Int) < a.fmod ws.length then 1 else 0)) ∧
    (∀ (w0 : Dict) (pots : List Pot) (wpp : List (List Nat)),
      pots.length = wpp.length → (∀ l ∈ wpp, l ≠ []) →
      valSum (distributeGo w0 pots wpp) = valSum w0 + (pots.map Pot.amount).sum) := by
  refine ⟨distributeOne_valSum w a ws hne, ?_,
    fun w0 pots wpp h1 h2 => distributeGo_valSum pots wpp w0 h1 h2⟩
  intro l1 l2 x hsplit h1 h2
  subst hsplit
  unfold distributeOne
  rw [creditLoop_getD_once _ _ _ _ _ _ _ h1 h2]
  simp

/-- Witness for `distribute_shares`: a 7-chip pot split three ways pays
3/2/2 with the odd chip to the first winner. -/
theorem distribute_shares_witness :
    valSum (distributeOne [] 7 [4, 5, 6]) = 7 ∧
    dictGetD (distributeOne [] 7 [4, 5, 6]) 4 = 3 := by
  have h := distribute_shares [] 7 [4, 5, 6] (by decide)
  refine ⟨by simpa using h.1, ?_⟩
  have h2 := h.2.1 [] [5, 6] 4 rfl (by decide) (by decide)
  rw [h2]
  decide

/-! ### C4: side-pot recalculation conserves the running total -/

theorem list_map_sum_add {α : Type} (l : List α) (f g : α → Int) :
    (l.map (fun x => f x + g x)).sum = (l.map f).sum + (l.map g).sum := by
  induction l with
  | nil => simp
  | cons x xs ih => simp [ih]; ring

theorem bandContrib_fst (active : List Nat) (prev level : Int) (l : Dict) :
    (bandContrib active prev level l).1 =
      (l.map (fun pc =>
        if pc.1 ∈ active then
          (if 0 < min (pc.2 - prev) (level - prev) then
            min (pc.2 - prev) (level - prev) else 0)
        else 0)).sum := by
  induction l with
  | nil => simp [bandContrib]
  | cons pc rest ih =>
      simp only [bandContrib, List.map_cons, List.sum_cons, gt_iff_lt]
      by_cases hm : pc.1 ∈ active
      · by_cases hc : 0 < min (pc.2 - prev) (level - prev)
        · simp [hm, hc, ih]
        · simp [hm, hc, ih]
      · simp [hm, ih]

theorem bandContrib_fst_nonneg (active : List Nat) (prev level : Int) (l : Dict) :
    0 ≤ (bandContrib active prev level l).1 := by
  rw [bandContrib_fst]
  apply List.sum_nonneg
  intro x hx
  simp only [List.mem_map] at hx
  obtain ⟨pc, -, rfl⟩ := hx
  split_ifs <;> omega

theorem excessContrib_fst (active : List Nat) (maxLevel : Int) (l : Dict) :
    (excessContrib active maxLevel l).1 =
      (l.map (fun pc =>
        if pc.1 ∈ active then
          (if 0 < pc.2 - maxLevel then pc.2 - maxLevel else 0)
        else 0)).sum := by
  induction l with
  | nil => simp [excessContrib]
  | cons pc rest ih =>
      simp only [excessContrib, List.map_cons, List.sum_cons, gt_iff_lt]
      by_cases hm : pc.1 ∈ active
      · by_cases hc : 0 < pc.2 - maxLevel
        · simp [hm, hc, ih]
        · simp [hm, hc, ih]
      · simp [hm, ih]

theorem excessContrib_fst_nonneg (active : List Nat) (maxLevel : Int) (l : Dict) :
    0 ≤ (excessContrib active maxLevel l).1 := by
  rw [excessContrib_fst]
  apply List.sum_nonneg
  intro x hx
  simp only [List.mem_map] at hx
  obtain ⟨pc, -, rfl⟩ := hx
  split_ifs <;> omega

theorem buildLevelPots_sum (contribs : Dict) (active : List Nat) :
    ∀ (levels : List Int) (prev : Int),
      ((buildLevelPots contribs active prev levels).map Pot.amount).sum =
        (contribs.map (fun pc =>
          if pc.1 ∈ active then clipSumP prev levels pc.2 else 0)).sum := by
  intro levels
  induction levels with
  | nil =>
      intro prev
      simp only [buildLevelPots, List.map_nil, List.sum_nil, clipSumP]
      symm
      apply List.sum_eq_zero
      intro x hx
      simp only [List.mem_map] at hx
      obtain ⟨pc, -, rfl⟩ := hx
      split_ifs <;> rfl
  | cons level rest ih =>
      intro prev
      have hsplit : (contribs.map (fun pc =>
            if pc.1 ∈ active then clipSumP prev (level :: rest) pc.2 else 0)).sum
          = (contribs.map (fun pc =>
              if pc.1 ∈ active then
                (if 0 < min (pc.2 - prev) (level - prev) then
                  min (pc.2 - prev) (level - prev) else 0)
              else 0)).sum
            + (contribs.map (fun pc =>
                if pc.1 ∈ active then clipSumP level rest pc.2 else 0)).sum := by
        rw [← list_map_sum_add]
        refine congrArg List.sum (List.map_congr_left ?_)
        intro pc _
        by_cases hm : pc.1 ∈ active <;> simp [hm, clipSumP]
      rw [hsplit, ← bandContrib_fst, ← ih level]
      simp only [buildLevelPots, List.map_append, List.sum_append, gt_iff_lt]
      by_cases hb : 0 < (bandContrib active prev level contribs).1
      · simp [hb]
      · have h0 : (bandContrib active prev level contribs).1 = 0 :=
          le_antisymm (not_lt.mp hb) (bandContrib_fst_nonneg active prev level contribs)
        simp [hb, h0]

theorem clipSumP_telescope :
    ∀ (levels : List Int) (prev c : Int), List.Chain (· ≤ ·) prev levels →
      clipSumP prev levels c +
        (if 0 < c - levels.getLastD prev then c - levels.getLastD prev else 0) =
      (if 0 < c - prev then c - prev else 0) := by
  intro levels
  induction levels with
  | nil => intro prev c _; simp [clipSumP]
  | cons l ls ih =>
      intro prev c hch
      rw [List.chain_cons] at hch
      obtain ⟨hpl, hch⟩ := hch
      simp only [clipSumP, List.getLastD_cons]
      rw [add_assoc, ih l c hch]
      simp only [min_def]
      split_ifs <;> omega

theorem foldl_max_getLastD :
    ∀ (ls : List Int) (l : Int), List.Chain (· ≤ ·) l ls →
      ls.foldl max l = ls.getLastD l := by
  intro ls
  induction ls with
  | nil => intro l _; rfl
  | cons y ys ih =>
      intro l hch
      rw [List.chain_cons] at hch
      simp only [List.foldl_cons, List.getLastD_cons]
      rw [max_eq_right hch.1]
      exact ih y hch.2

theorem listMax_sorted (levels : List Int) (h0 : List.Chain (· ≤ ·) 0 levels)
    (hne : levels ≠ []) : listMax levels = levels.getLastD 0 := by
  cases levels with
  | nil => simp at hne
  | cons l ls =>
      simp only [listMax, List.getLastD_cons]
      exact foldl_max_getLastD ls l (List.chain_cons.mp h0).2

theorem levels_chain (vals : List Int) (hv : ∀ v ∈ vals, 0 ≤ v) :
    List.Chain (· ≤ ·) 0 (sortInt vals.dedup) := by
  apply List.Pairwise.chain
  rw [List.pairwise_cons]
  refine ⟨?_, ?_⟩
  · intro x hx
    have hx' : x ∈ vals :=
      List.mem_dedup.mp ((List.perm_insertionSort _ _).mem_iff.mp hx)
    exact hv x hx'
  · exact List.sorted_insertionSort _ _

theorem sortInt_ne_nil (l : List Int) (h : l ≠ []) : sortInt l ≠ [] := by
  intro hh
  have hlen := (List.perm_insertionSort (· ≤ ·) l).length_eq
  unfold sortInt at hh
  rw [hh] at hlen
  exact h (List.length_eq_zero.mp hlen.symm)

theorem ite_nonempty_wrap (X : List Pot) :
    (if X = [] then [(⟨0, []⟩ : Pot)] else X) ≠ [] := by
  by_cases h : X = []
  · simp [h]
  · rw [if_neg h]; exact h

theorem calculateSidePots_contributions (s : PotState) (allIn : Dict)
    (active : List Nat) :
    (calculateSidePots s allIn active).contributions = s.contributions := by
  unfold calculateSidePots
  split_ifs <;> rfl

theorem calculateSidePots_pots_ne_nil (s : PotState) (allIn : Dict)
    (active : List Nat) (hs : s.pots ≠ []) :
    (calculateSidePots s allIn active).pots ≠ [] := by
  unfold calculateSidePots
  by_cases hA : allIn = []
  · rw [if_pos hA]; simp
  · rw [if_neg hA]
    by_cases hC : s.contributions = []
    · rw [if_pos hC]; exact hs
    · rw [if_neg hC]
      exact ite_nonempty_wrap _

/-- The central conservation lemma for `calculate_side_pots`: under the
invariants `add_bet` maintains (pot total = ledger total, positive ledger
entries) plus non-negative all-in amounts, the recalculated pots sum to
the pre-split total provided some active player contributed (or there are
no folded contributions to fold in). -/
theorem calculateSidePots_total (s : PotState) (allIn : Dict) (active : List Nat)
    (hsync : potsTotal s = ledgerSum s)
    (hpos : ∀ pc ∈ s.contributions, 0 < pc.2)
    (hai : ∀ pv ∈ allIn, 0 ≤ pv.2)
    (hcover : allIn ≠ [] → ∃ pc ∈ s.contributions, pc.1 ∈ active ∧ 0 < pc.2) :
    potsTotal (calculateSidePots s allIn active) = potsTotal s := by
  by_cases hA : allIn = []
  · simp [calculateSidePots, hA, potsTotal]
  · by_cases hC : s.contributions = []
    · unfold calculateSidePots
      rw [if_neg hA, if_pos hC]
    · have hvals : ∀ v ∈ allIn.map Prod.snd, 0 ≤ v := by
        intro v hv
        simp only [List.mem_map] at hv
        obtain ⟨pv, hmem, rfl⟩ := hv
        exact hai pv hmem
      have hchain : List.Chain (· ≤ ·) 0 (sortInt (allIn.map Prod.snd).dedup) :=
        levels_chain _ hvals
      have hdedup : (allIn.map Prod.snd).dedup ≠ [] := by
        intro hh
        exact hA (List.map_eq_nil_iff.mp ((List.dedup_eq_nil _).mp hh))
      have hlevne : sortInt (allIn.map Prod.snd).dedup ≠ [] := sortInt_ne_nil _ hdedup
      have hmax : listMax (sortInt (allIn.map Prod.snd).dedup) =
          (sortInt (allIn.map Prod.snd).dedup).getLastD 0 :=
        listMax_sorted _ hchain hlevne
      unfold calculateSidePots
      rw [if_neg hA, if_neg hC]
      simp only [potsTotal]
      set L := sortInt (allIn.map Prod.snd).dedup with hLdef
      set B := buildLevelPots s.contributions active 0 L with hBdef
      set rem := excessContrib active (listMax L) s.contributions with hremdef
      set F := foldedTotal s.contributions active with hFdef
      set AS := (s.contributions.map
        (fun pc => if pc.1 ∈ active then pc.2 else 0)).sum with hASdef
      have hkey : (B.map Pot.amount).sum + rem.1 = AS := by
        rw [hBdef, hremdef, hASdef, buildLevelPots_sum, excessContrib_fst,
          ← list_map_sum_add]
        refine congrArg List.sum (List.map_congr_left ?_)
        intro pc hm
        by_cases hmem : pc.1 ∈ active
        · simp only [hmem, if_true]
          rw [hmax, clipSumP_telescope L 0 pc.2 hchain]
          have hc := hpos pc hm
          simp only [sub_zero]
          rw [if_pos hc]
        · simp [hmem]
      have hledger : AS + F = ledgerSum s := by
        rw [hASdef, hFdef]
        unfold foldedTotal ledgerSum valSum
        rw [← list_map_sum_add]
        refine congrArg List.sum (List.map_congr_left ?_)
        intro pc _
        by_cases hmem : pc.1 ∈ active <;> simp [hmem]
      have hfnn : 0 ≤ F := by
        rw [hFdef]
        unfold foldedTotal
        apply List.sum_nonneg
        intro x hx
        simp only [List.mem_map] at hx
        obtain ⟨pc, hmem, rfl⟩ := hx
        by_cases hmem2 : pc.1 ∈ active
        · simp [hmem2]
        · simp only [hmem2, if_false]
          exact le_of_lt (hpos pc hmem)
      set P1 := B ++ (if rem.1 > 0 then [(⟨rem.1, sortNat rem.2⟩ : Pot)] else [])
        with hP1def
      have hP1sum : (P1.map Pot.amount).sum = AS := by
        rw [hP1def, List.map_append, List.sum_append]
        by_cases hr : rem.1 > 0
        · rw [if_pos hr]
          simpa using hkey
        · have h0 : rem.1 = 0 :=
            le_antisymm (not_lt.mp hr)
              (hremdef ▸ excessContrib_fst_nonneg active (listMax L) s.contributions)
          rw [if_neg hr]
          simp only [List.map_nil, List.sum_nil, add_zero]
          omega
      have hASpos : 0 < AS := by
        obtain ⟨pc, hm, hmem, hcpos⟩ := hcover hA
        have hnn : ∀ x ∈ s.contributions.map
            (fun pc => if pc.1 ∈ active then pc.2 else 0), 0 ≤ x := by
          intro x hx
          simp only [List.mem_map] at hx
          obtain ⟨pc', hmem', rfl⟩ := hx
          by_cases hmm : pc'.1 ∈ active
          · simp only [hmm, if_true]; exact le_of_lt (hpos pc' hmem')
          · simp [hmm]
        have helem : (if pc.1 ∈ active then pc.2 else 0) ∈ s.contributions.map
            (fun pc => if pc.1 ∈ active then pc.2 else 0) :=
          List.mem_map_of_mem _ hm
        rw [if_pos hmem] at helem
        have := List.single_le_sum hnn _ helem
        rw [← hASdef] at this
        omega
      have hP1ne : P1 ≠ [] := by
        intro hh
        rw [hh] at hP1sum
        simp only [List.map_nil, List.sum_nil] at hP1sum
        omega
      by_cases hcond : F > 0 ∧ P1 ≠ []
      · obtain ⟨p, rest, hPe⟩ : ∃ p rest, P1 = p :: rest := by
          rcases hP : P1 with _ | ⟨p, rest⟩
          · exact absurd hP hcond.2
          · exact ⟨p, rest, rfl⟩
        rw [if_pos hcond, hPe]
        have hs1 : ({ p with amount := p.amount + F } :: rest) ≠ ([] : List Pot) := by
          simp
        rw [if_neg hs1]
        have hsum2 : (P1.map Pot.amount).sum = p.amount + (rest.map Pot.amount).sum := by
          rw [hPe]; simp
        simp only [List.map_cons, List.sum_cons]
        have hsync2 : (List.map Pot.amount s.pots).sum = ledgerSum s := hsync
        omega
      · rw [if_neg hcond, if_neg hP1ne]
        have hsync2 : (List.map Pot.amount s.pots).sum = ledgerSum s := hsync
        have hF0 : F = 0 := by
          rcases not_and_or.mp hcond with hf | hp
          · omega
          · exact absurd hP1ne hp
        omega

/-- C4 counterexample: a folded contribution of 100 with an all-in seat
that never contributed is dropped entirely — the recalculated total is 0
while the pre-split running total was 100, so the claim fails as
universally stated. -/
theorem side_pots_total_counterexample :
    potsTotal (calculateSidePots (addBet PotState.init 0 100) [(1, 50)] [1]) = 0 ∧
    potsTotal (addBet PotState.init 0 100) = 100 := by
  constructor
  · rfl
  · rfl

/-- C4 (amended): for every contribution ledger with positive entries
whose total equals the pre-split pot total (as `add_bet` guarantees),
every all-in map with non-negative amounts, and every active-player set,
the recalculated pots sum to the pre-split running total provided some
active player has a positive contribution or no folded player
contributed; folded contributions are folded into the first pot. -/
theorem side_pots_conserve_total (s : PotState) (allIn : Dict) (active : List Nat)
    (hsync : potsTotal s = ledgerSum s)
    (hpos : ∀ pc ∈ s.contributions, 0 < pc.2)
    (hai : ∀ pv ∈ allIn, 0 ≤ pv.2)
    (hcover : allIn ≠ [] → ∃ pc ∈ s.contributions, pc.1 ∈ active ∧ 0 < pc.2) :
    potsTotal (calculateSidePots s allIn active) = potsTotal s :=
  calculateSidePots_total s allIn active hsync hpos hai hcover

/-- Witness for `side_pots_conserve_total`: a folded 100-chip
contribution is folded into the first pot, conserving the 160 total. -/
theorem side_pots_conserve_total_witness :
    potsTotal (calculateSidePots (addBet (addBet PotState.init 0 100) 1 60)
        [(1, 60)] [1]) =
      potsTotal (addBet (addBet PotState.init 0 100) 1 60) :=
  side_pots_conserve_total (addBet (addBet PotState.init 0 100) 1 60)
    [(1, 60)] [1] (by decide) (by decide) (by decide) (by decide)

/-! ### C1 groundwork: chips, dictionaries, seats -/

theorem chipsSum_set (players : List PlayerState) (seat : Nat)
    (p p' : PlayerState) (h : players.get? seat = some p) :
    chipsSum (players.set seat p') = chipsSum players - p.chips + p'.chips := by
  induction players generalizing seat with
  | nil => simp at h
  | cons q rest ih =>
      cases seat with
      | zero =>
          simp only [List.get?] at h
          injection h with h
          subst h
          simp only [List.set, chipsSum, List.map_cons, List.sum_cons]
          ring
      | succ n =>
          simp only [List.get?] at h
          have := ih n h
          simp only [List.set, chipsSum, List.map_cons, List.sum_cons] at this ⊢
          omega

theorem chipsSum_map (players : List PlayerState) (f : PlayerState → PlayerState)
    (hf : ∀ p, (f p).chips = p.chips) :
    chipsSum (players.map f) = chipsSum players := by
  induction players with
  | nil => rfl
  | cons q rest ih =>
      simp only [List.map_cons, chipsSum, List.sum_cons] at ih ⊢
      rw [hf q]
      omega

theorem seatConsistent_iff (players : List PlayerState) :
    seatConsistent players ↔
      ∀ (i : Nat) (p : PlayerState), players.get? i = some p → p.seat_index = i := by
  unfold seatConsistent
  constructor
  · intro h i p hg
    have hm : (i, p) ∈ players.enum := by
      rw [List.mem_iff_get?]
      exact ⟨i, by rw [List.get?_enum, hg]; rfl⟩
    exact h (i, p) hm
  · intro h pr hpr
    rw [List.mem_iff_get?] at hpr
    obtain ⟨n, hn⟩ := hpr
    rw [List.get?_enum] at hn
    cases hg : players.get? n with
    | none => rw [hg] at hn; simp at hn
    | some q =>
        rw [hg] at hn
        simp only [Option.map_some'] at hn
        injection hn with hn
        subst hn
        exact h n q hg

theorem seatConsistent_set (players : List PlayerState) (i : Nat)
    (p p' : PlayerState) (h : seatConsistent players)
    (hg : players.get? i = some p) (hseat : p'.seat_index = p.seat_index) :
    seatConsistent (players.set i p') := by
  rw [seatConsistent_iff] at h ⊢
  intro j q hj
  by_cases hij : i = j
  · subst hij
    have hlt : i < players.length := (List.get?_eq_some.mp hg).choose
    rw [List.get?_set_eq_of_lt _ hlt] at hj
    injection hj with hj
    subst hj
    rw [hseat]
    exact h i p hg
  · rw [List.get?_set_ne _ _ hij] at hj
    exact h j q hj

theorem seatConsistent_map (players : List PlayerState)
    (f : PlayerState → PlayerState) (h : seatConsistent players)
    (hf : ∀ p, (f p).seat_index = p.seat_index) :
    seatConsistent (players.map f) := by
  rw [seatConsistent_iff] at h ⊢
  intro i p hg
  rw [List.get?_map] at hg
  cases hq : players.get? i with
  | none => rw [hq] at hg; simp at hg
  | some q =>
      rw [hq] at hg
      simp only [Option.map_some'] at hg
      injection hg with hg
      subst hg
      rw [hf q]
      exact h i q hq

theorem addBet_nonpos (s : PotState) (k : Nat) (a : Int) (ha : a ≤ 0) :
    addBet s k a = s := by
  unfold addBet
  rw [if_pos ha]

theorem addBet_pos (s : PotState) (k : Nat) (a : Int) (hne : s.pots ≠ [])
    (ha : 0 < a) :
    potsTotal (addBet s k a) = potsTotal s + a ∧
    (addBet s k a).contributions = dictAdd s.contributions k a ∧
    (addBet s k a).pots ≠ [] := by
  unfold addBet
  rw [if_neg (not_le.mpr ha)]
  cases hp : s.pots with
  | nil => exact absurd hp hne
  | cons p rest =>
      refine ⟨?_, rfl, by simp⟩
      simp only [potsTotal, hp, List.map_cons, List.sum_cons]
      ring

theorem dictAdd_pos_entries (d : Dict) (k : Nat) (a : Int)
    (hd : ∀ pc ∈ d, 0 < pc.2) (ha : 0 < a) :
    ∀ pc ∈ dictAdd d k a, 0 < pc.2 := by
  induction d with
  | nil =>
      intro pc hpc
      simp only [dictAdd, List.mem_singleton] at hpc
      subst hpc
      exact ha
  | cons hd' tl ih =>
      intro pc hpc
      by_cases h : hd'.1 = k
      · simp only [dictAdd, if_pos h, List.mem_cons] at hpc
        rcases hpc with rfl | hpc
        · have h1 := hd hd' (by simp)
          simp only []
          omega
        · exact hd pc (List.mem_cons_of_mem _ hpc)
      · simp only [dictAdd, if_neg h, List.mem_cons] at hpc
        rcases hpc with rfl | hpc
        · exact hd hd' (by simp)
        · exact ih (fun pc' hpc' => hd pc' (List.mem_cons_of_mem _ hpc')) pc hpc

theorem dictGet_dictAdd_self (d : Dict) (k : Nat) (v : Int) :
    dictGet (dictAdd d k v) k = some (dictGetD d k + v) := by
  induction d with
  | nil => simp [dictAdd, dictGet, dictGetD]
  | cons hd tl ih =>
      by_cases h : hd.1 = k
      · simp [dictAdd, h, dictGet, dictGetD]
      · simp [dictAdd, h, dictGet, dictGetD] at ih ⊢
        exact ih

theorem dictGet_dictAdd_other (d : Dict) (k k' : Nat) (v : Int) (h : k' ≠ k) :
    dictGet (dictAdd d k v) k' = dictGet d k' := by
  have hkk : ¬k = k' := fun hc => h hc.symm
  induction d with
  | nil => simp [dictAdd, dictGet, hkk]
  | cons hd tl ih =>
      by_cases hh : hd.1 = k
      · subst hh
        simp [dictAdd, dictGet, hkk]
      · by_cases hk' : hd.1 = k'
        · simp [dictAdd, hh, dictGet, hk', h]
        · simp [dictAdd, hh, dictGet, hk']
          exact ih

theorem dictGet_mem (d : Dict) (k : Nat) (c : Int) (h : dictGet d k = some c) :
    (k, c) ∈ d := by
  induction d with
  | nil => simp [dictGet] at h
  | cons hd tl ih =>
      by_cases hh : hd.1 = k
      · simp only [dictGet, if_pos hh] at h
        injection h with h
        have he : (k, c) = hd := by
          obtain ⟨k0, c0⟩ := hd
          simp only [] at hh h
          rw [hh, h]
        rw [he]
        exact List.mem_cons_self _ _
      · simp only [dictGet, if_neg hh] at h
        exact List.mem_cons_of_mem _ (ih h)

theorem dictGetD_nonneg (d : Dict) (k : Nat) (hd : ∀ pc ∈ d, 0 < pc.2) :
    0 ≤ dictGetD d k := by
  unfold dictGetD
  cases hg : dictGet d k with
  | none => simp
  | some c =>
      have := hd (k, c) (dictGet_mem d k c hg)
      simp only [Option.getD_some]
      omega

theorem dictSet_not_mem (d : Dict) (k : Nat) (v : Int)
    (h : dictMem d k = false) : dictSet d k v = d ++ [(k, v)] := by
  induction d with
  | nil => rfl
  | cons hd tl ih =>
      simp only [dictMem, Bool.or_eq_false_iff, decide_eq_false_iff_not] at h
      simp only [dictSet, if_neg h.1, List.cons_append]
      rw [ih h.2]

theorem creditChips_length (ps : List PlayerState) (i : Nat) (a : Int) :
    (creditChips ps i a).length = ps.length := by
  induction ps generalizing i with
  | nil => rfl
  | cons p rest ih =>
      cases i with
      | zero => rfl
      | succ n => simp [creditChips, ih]

theorem creditChips_chipsSum (ps : List PlayerState) (i : Nat) (a : Int)
    (h : i < ps.length) : chipsSum (creditChips ps i a) = chipsSum ps + a := by
  induction ps generalizing i with
  | nil => simp at h
  | cons p rest ih =>
      cases i with
      | zero =>
          simp only [creditChips, chipsSum, List.map_cons, List.sum_cons]
          ring
      | succ n =>
          simp only [creditChips, chipsSum, List.map_cons, List.sum_cons]
          have := ih n (by simpa using h)
          simp only [chipsSum] at this
          omega

theorem applyWinnings_chipsSum (ps : List PlayerState) (w : Dict)
    (h : ∀ kv ∈ w, kv.1 < ps.length) :
    chipsSum (applyWinnings ps w) = chipsSum ps + valSum w := by
  induction w generalizing ps with
  | nil => simp [applyWinnings, valSum]
  | cons kv rest ih =>
      simp only [applyWinnings, List.foldl_cons] at ih ⊢
      rw [ih (creditChips ps kv.1 kv.2)
        (fun kv' hkv' => by
          rw [creditChips_length]
          exact h kv' (by simp [hkv']))]
      rw [creditChips_chipsSum ps kv.1 kv.2 (h kv (by simp))]
      simp only [valSum, List.map_cons, List.sum_cons]
      ring

/-! ### C1 groundwork: betting-step specification -/

theorem getValidActions_actionable (bm : BettingState) (p : PlayerState)
    (h : getValidActions bm p ≠ []) :
    p.is_folded = false ∧ p.is_all_in = false ∧ p.is_eliminated = false := by
  unfold getValidActions at h
  by_cases hc : p.is_folded || p.is_all_in || p.is_eliminated
  · rw [if_pos hc] at h; exact absurd rfl h
  · simp only [Bool.or_eq_true, not_or, Bool.not_eq_true] at hc
    exact ⟨hc.1.1, hc.1.2, hc.2⟩

theorem mem_valid_call (bm : BettingState) (p : PlayerState)
    (h : ActionType.call ∈ getValidActions bm p) :
    0 < bm.current_bet - p.current_bet := by
  unfold getValidActions at h
  by_cases h0 : p.is_folded || p.is_all_in || p.is_eliminated
  · rw [if_pos h0] at h; simp at h
  · rw [if_neg h0] at h
    dsimp only at h
    by_cases h1 : bm.current_bet - p.current_bet ≤ 0
    · rw [if_pos h1] at h
      by_cases h2 : p.chips > bm.current_bet - p.current_bet
      · rw [if_pos h2] at h; simp at h
      · rw [if_neg h2] at h; simp at h
    · omega

theorem mem_valid_raise (bm : BettingState) (p : PlayerState)
    (h : ActionType.raise ∈ getValidActions bm p) :
    bm.current_bet - p.current_bet < p.chips := by
  unfold getValidActions at h
  by_cases h0 : p.is_folded || p.is_all_in || p.is_eliminated
  · rw [if_pos h0] at h; simp at h
  · rw [if_neg h0] at h
    dsimp only at h
    by_cases h2 : p.chips > bm.current_bet - p.current_bet
    · omega
    · rw [if_neg h2] at h
      by_cases h1 : bm.current_bet - p.current_bet ≤ 0
      · rw [if_pos h1] at h; simp at h
      · rw [if_neg h1] at h; simp at h

theorem validateAction_true_spec (bm : BettingState) (p : PlayerState)
    (ty : ActionType) (amt : Option Int)
    (h : (validateAction bm p ty amt).1 = true) :
    getValidActions bm p ≠ [] ∧ ty ∈ getValidActions bm p ∧
    (ty = ActionType.raise →
      ∃ a, amt = some a ∧
        (getMinRaiseTo bm p ≤ a ∨ a = getMaxRaiseTo bm p) ∧
        a ≤ getMaxRaiseTo bm p) := by
  unfold validateAction at h
  by_cases h1 : getValidActions bm p = []
  · rw [if_pos h1] at h; simp at h
  · rw [if_neg h1] at h
    by_cases h2 : ty ∉ getValidActions bm p
    · rw [if_pos h2] at h; simp at h
    · rw [if_neg h2] at h
      refine ⟨h1, not_not.mp h2, ?_⟩
      intro hty
      subst hty
      rw [if_pos rfl] at h
      cases amt with
      | none => simp at h
      | some a =>
          dsimp only at h
          by_cases hb : a < getMinRaiseTo bm p ∧ a ≠ getMaxRaiseTo bm p
          · rw [if_pos hb] at h; simp at h
          · rw [if_neg hb] at h
            by_cases hc : a > getMaxRaiseTo bm p
            · rw [if_pos hc] at h; simp at h
            · refine ⟨a, rfl, ?_, by omega⟩
              rcases not_and_or.mp hb with h' | h'
              · left; omega
              · right; exact not_not.mp h'

/-- The full specification of a successful `BettingManager.apply_action`:
the recorded amount `v` moves from the player's stack to the current bet,
the action is structurally the expected record, and the betting-round
bounds are maintained. -/
theorem bmApply_ok_main (bm : BettingState) (p : PlayerState) (ty : ActionType)
    (amt : Option Int) (ts : String) (bm' : BettingState) (p' : PlayerState)
    (act : Action)
    (hGa : actionable p = true →
      0 < p.chips ∧ 0 ≤ p.current_bet ∧ p.current_bet ≤ bm.current_bet)
    (hmr : 0 ≤ bm.min_raise)
    (h : bmApplyAction bm p ty amt ts = .ok (bm', p', act)) :
    ∃ v : Int,
      act = ⟨p.seat_index, ty, some v, ts⟩ ∧
      0 ≤ v ∧
      p'.seat_index = p.seat_index ∧
      p'.is_eliminated = false ∧
      p'.hole_cards = p.hole_cards ∧
      p'.chips = p.chips - v ∧
      p'.current_bet = p.current_bet + v ∧
      0 ≤ p'.chips ∧
      p.is_all_in = false ∧
      p.is_folded = false ∧
      p.is_eliminated = false ∧
      (p'.is_all_in = true → v = p.chips ∧ p'.is_folded = false) ∧
      (p'.chips = 0 → p'.is_all_in = true) ∧
      p'.current_bet ≤ bm'.current_bet ∧
      bm.current_bet ≤ bm'.current_bet ∧
      0 ≤ bm'.min_raise := by
  have hv : (validateAction bm p ty amt).1 = true := by
    by_cases hval : (validateAction bm p ty amt).1 = false
    · unfold bmApplyAction at h
      simp [hval] at h
    · simpa using hval
  obtain ⟨hne, hmem, hraise⟩ := validateAction_true_spec bm p ty amt hv
  obtain ⟨hf, ha, he⟩ := getValidActions_actionable bm p hne
  have hact : actionable p = true := by simp [actionable, hf, ha, he]
  obtain ⟨hchips, hpcb0, hpcbcb⟩ := hGa hact
  unfold bmApplyAction at h
  simp only [hv, Bool.true_eq_false, if_false] at h
  cases ty with
  | post_blind => simp at h
  | fold =>
      simp only [finishAction, Except.ok.injEq, Prod.mk.injEq] at h
      obtain ⟨hbm, hp, hactn⟩ := h
      subst hbm; subst hp; subst hactn
      refine ⟨0, ?_, ?_, ?_, ?_, ?_, ?_, ?_, ?_, ?_, ?_, ?_, ?_, ?_, ?_, ?_, ?_⟩ <;>
        (try dsimp only) <;>
        first
          | rfl
          | exact he
          | exact ha
          | exact hf
          | omega
          | (intro hz; rw [ha] at hz; cases hz)
          | (intro hz; exfalso; omega)
          | (intro hz; exact ⟨by omega, hf⟩)
          | (intro hz; rfl)
  | check =>
      simp only [finishAction, Except.ok.injEq, Prod.mk.injEq] at h
      obtain ⟨hbm, hp, hactn⟩ := h
      subst hbm; subst hp; subst hactn
      refine ⟨0, ?_, ?_, ?_, ?_, ?_, ?_, ?_, ?_, ?_, ?_, ?_, ?_, ?_, ?_, ?_, ?_⟩ <;>
        (try dsimp only) <;>
        first
          | rfl
          | exact he
          | exact ha
          | exact hf
          | omega
          | (intro hz; rw [ha] at hz; cases hz)
          | (intro hz; exfalso; omega)
          | (intro hz; exact ⟨by omega, hf⟩)
          | (intro hz; rfl)
  | call =>
      have hatc : 0 < bm.current_bet - p.current_bet := mem_valid_call bm p hmem
      have hca : getCallAmount bm p =
          min (bm.current_bet - p.current_bet) p.chips := by
        unfold getCallAmount; omega
      dsimp only at h
      split at h <;> rename_i hB <;> (try dsimp only at hB) <;>
        simp only [finishAction, Except.ok.injEq, Prod.mk.injEq] at h <;>
        obtain ⟨hbm, hp, hactn⟩ := h <;> subst hbm <;> subst hp <;> subst hactn <;>
        refine ⟨getCallAmount bm p, ?_, ?_, ?_, ?_, ?_, ?_, ?_, ?_, ?_, ?_, ?_,
          ?_, ?_, ?_, ?_, ?_⟩ <;>
        (try dsimp only) <;>
        first
          | rfl
          | exact he
          | exact ha
          | exact hf
          | omega
          | (intro hz; rw [ha] at hz; cases hz)
          | (intro hz; exfalso; omega)
          | (intro hz; exact ⟨by omega, hf⟩)
          | (intro hz; rfl)
  | raise =>
      obtain ⟨a, hamt, habc, hamax⟩ := hraise rfl
      subst hamt
      have hrc : bm.current_bet - p.current_bet < p.chips := mem_valid_raise bm p hmem
      simp only [getMinRaiseTo, getMaxRaiseTo] at habc hamax
      have hcba : bm.current_bet ≤ a := by omega
      have hvnn : 0 ≤ a - p.current_bet := by omega
      dsimp only at h
      split at h <;> rename_i hA <;> split at h <;> rename_i hB <;>
        (try dsimp only at hA) <;> (try dsimp only at hB) <;>
        simp only [finishAction, Except.ok.injEq, Prod.mk.injEq] at h <;>
        obtain ⟨hbm, hp, hactn⟩ := h <;> subst hbm <;> subst hp <;> subst hactn <;>
        refine ⟨a - p.current_bet, ?_, ?_, ?_, ?_, ?_, ?_, ?_, ?_, ?_, ?_, ?_,
          ?_, ?_, ?_, ?_, ?_⟩ <;>
        (try dsimp only) <;>
        first
          | rfl
          | exact he
          | exact ha
          | exact hf
          | omega
          | (intro hz; rw [ha] at hz; cases hz)
          | (intro hz; exfalso; omega)
          | (intro hz; exact ⟨by omega, hf⟩)
          | (intro hz; rfl)

theorem dictMem_true_exists (d : Dict) (k : Nat) (h : dictMem d k = true) :
    ∃ v, (k, v) ∈ d := by
  induction d with
  | nil => simp [dictMem] at h
  | cons hd tl ih =>
      simp only [dictMem, Bool.or_eq_true, decide_eq_true_eq] at h
      rcases h with h | h
      · refine ⟨hd.2, ?_⟩
        have : (k, hd.2) = hd := by
          obtain ⟨k0, v0⟩ := hd
          simp only [] at h ⊢
          rw [h]
        rw [this]
        exact List.mem_cons_self _ _
      · obtain ⟨v, hv⟩ := ih h
        exact ⟨v, List.mem_cons_of_mem _ hv⟩

/-- One successful `GameEngine.apply_action` preserves the in-hand
invariant and the quantity `Σ chips + Σ pot.amount`. -/
theorem engineApply_preserves (s : EngineState) (seat : Nat) (ty : ActionType)
    (amt : Option Int) (ts : String) (s' : EngineState) (act : Action)
    (hinv : INV s) (h : engineApplyAction s seat ty amt ts = .ok (s', act)) :
    INV s' ∧
    chipsSum s'.players + potsTotal s'.pm = chipsSum s.players + potsTotal s.pm := by
  obtain ⟨hseat, hpne, hsync, hledpos, hallin1, hallin2, hG, hmr, hcb⟩ := hinv
  unfold engineApplyAction at h
  cases hgp : s.players.get? seat with
  | none => rw [hgp] at h; simp at h
  | some player =>
      rw [hgp] at h
      dsimp only at h
      cases hbm : bmApplyAction s.bm player ty amt ts with
      | error e =>
          obtain ⟨m, bmE, pE⟩ := e
          rw [hbm] at h
          simp at h
      | ok res =>
          obtain ⟨bm2, p2, act2⟩ := res
          rw [hbm] at h
          dsimp only at h
          rw [Except.ok.injEq, Prod.mk.injEq] at h
          obtain ⟨hs', hact2⟩ := h
          subst hact2
          have hplayermem : player ∈ s.players := by
            rw [List.mem_iff_get?]; exact ⟨seat, hgp⟩
          have hseatlt : seat < s.players.length := (List.get?_eq_some.mp hgp).choose
          have hseatidx : player.seat_index = seat :=
            (seatConsistent_iff _).mp hseat seat player hgp
          obtain ⟨v, hactv, hv0, hp2seat, hp2el, hp2hole, hp2chips, hp2cb,
            hp2chips0, hpai, hpf, hpel, hp2allin, hp2zero, hp2cb2, hcbmono, hmr2⟩ :=
            bmApply_ok_main s.bm player ty amt ts bm2 p2 act2 (fun hactp =>
              hG player hplayermem hactp) hmr hbm
          have hpact : actionable player = true := by
            simp [actionable, hpf, hpai, hpel]
          obtain ⟨hchp, hpcb0, hpcbc⟩ := hG player hplayermem hpact
          subst hactv
          dsimp only at hs'
          subst hs'
          -- the seat was not previously recorded as all-in
          have hnotmem : dictMem s.all_in_amounts seat = false := by
            by_cases hm : dictMem s.all_in_amounts seat = true
            · obtain ⟨w, hw⟩ := dictMem_true_exists _ _ hm
              obtain ⟨-, q, hq, hqa, -, -⟩ := hallin1 (seat, w) hw
              rw [hgp] at hq
              injection hq with hq
              rw [← hq] at hqa
              rw [hpai] at hqa
              cases hqa
            · simpa using hm
          constructor
          · constructor
            · exact seatConsistent_set _ _ _ _ hseat hgp hp2seat
            constructor
            · by_cases hvpos : v > 0
              · rw [if_pos hvpos]
                exact (addBet_pos s.pm seat v hpne hvpos).2.2
              · rw [if_neg hvpos]; exact hpne
            constructor
            · by_cases hvpos : v > 0
              · rw [if_pos hvpos]
                have ha1 := addBet_pos s.pm seat v hpne hvpos
                rw [ha1.1]
                show potsTotal s.pm + v = ledgerSum (addBet s.pm seat v)
                unfold ledgerSum
                rw [ha1.2.1, valSum_dictAdd]
                unfold ledgerSum at hsync
                omega
              · rw [if_neg hvpos]; exact hsync
            constructor
            · by_cases hvpos : v > 0
              · rw [if_pos hvpos]
                intro pc hpc
                rw [(addBet_pos s.pm seat v hpne hvpos).2.1] at hpc
                exact dictAdd_pos_entries _ _ _ hledpos hvpos pc hpc
              · rw [if_neg hvpos]; exact hledpos
            constructor
            · -- all-in record: amounts and live all-in players
              intro pv hpv
              by_cases hcase : (p2.is_all_in && !(dictMem s.all_in_amounts seat)) = true
              · rw [if_pos hcase] at hpv
                rw [dictSet_not_mem _ _ _ hnotmem, List.mem_append] at hpv
                rcases hpv with hpv | hpv
                · obtain ⟨hv1, q, hq, hqa, hqf, hqe⟩ := hallin1 pv hpv
                  have hne : pv.1 ≠ seat := by
                    intro hc
                    rw [hc, hgp] at hq
                    injection hq with hq
                    rw [← hq, hpai] at hqa
                    cases hqa
                  refine ⟨hv1, q, ?_, hqa, hqf, hqe⟩
                  rw [List.get?_set_ne _ _ (fun hc => hne hc.symm)]
                  exact hq
                · simp only [List.mem_singleton] at hpv
                  subst hpv
                  simp only [Bool.and_eq_true] at hcase
                  refine ⟨by dsimp only; omega, p2, ?_, hcase.1, (hp2allin hcase.1).2, hp2el⟩
                  rw [List.get?_set_eq_of_lt _ hseatlt]
              · rw [if_neg hcase] at hpv
                obtain ⟨hv1, q, hq, hqa, hqf, hqe⟩ := hallin1 pv hpv
                have hne : pv.1 ≠ seat := by
                  intro hc
                  rw [hc, hgp] at hq
                  injection hq with hq
                  rw [← hq, hpai] at hqa
                  cases hqa
                refine ⟨hv1, q, ?_, hqa, hqf, hqe⟩
                rw [List.get?_set_ne _ _ (fun hc => hne hc.symm)]
                exact hq
            constructor
            · -- all-in record: positive ledger entries
              intro pv hpv
              by_cases hcase : (p2.is_all_in && !(dictMem s.all_in_amounts seat)) = true
              · rw [if_pos hcase] at hpv
                rw [dictSet_not_mem _ _ _ hnotmem, List.mem_append] at hpv
                simp only [Bool.and_eq_true] at hcase
                have hvchips : v = player.chips := (hp2allin hcase.1).1
                have hvpos : v > 0 := by omega
                rcases hpv with hpv | hpv
                · obtain ⟨c, hc, hcpos⟩ := hallin2 pv hpv
                  obtain ⟨-, q, hq, hqa, -, -⟩ := hallin1 pv hpv
                  have hne : pv.1 ≠ seat := by
                    intro hcc
                    rw [hcc, hgp] at hq
                    injection hq with hq
                    rw [← hq, hpai] at hqa
                    cases hqa
                  rw [if_pos hvpos, (addBet_pos s.pm seat v hpne hvpos).2.1]
                  exact ⟨c, by rw [dictGet_dictAdd_other _ _ _ _ hne]; exact hc, hcpos⟩
                · simp only [List.mem_singleton] at hpv
                  subst hpv
                  rw [if_pos hvpos, (addBet_pos s.pm seat v hpne hvpos).2.1]
                  refine ⟨dictGetD s.pm.contributions seat + v, ?_, ?_⟩
                  · exact dictGet_dictAdd_self _ _ _
                  · have := dictGetD_nonneg s.pm.contributions seat hledpos
                    omega
              · rw [if_neg hcase] at hpv
                obtain ⟨c, hc, hcpos⟩ := hallin2 pv hpv
                obtain ⟨-, q, hq, hqa, -, -⟩ := hallin1 pv hpv
                have hne : pv.1 ≠ seat := by
                  intro hcc
                  rw [hcc, hgp] at hq
                  injection hq with hq
                  rw [← hq, hpai] at hqa
                  cases hqa
                by_cases hvpos : v > 0
                · rw [if_pos hvpos, (addBet_pos s.pm seat v hpne hvpos).2.1]
                  exact ⟨c, by rw [dictGet_dictAdd_other _ _ _ _ hne]; exact hc, hcpos⟩
                · rw [if_neg hvpos]
                  exact ⟨c, hc, hcpos⟩
            constructor
            · -- bounds for players who can still act
              intro q hq hqact
              rcases List.mem_or_eq_of_mem_set hq with hq' | hq'
              · obtain ⟨h1, h2, h3⟩ := hG q hq' hqact
                exact ⟨h1, h2, le_trans h3 hcbmono⟩
              · subst hq'
                have hqnz : q.chips ≠ 0 := by
                  intro hz
                  have := hp2zero hz
                  simp [actionable, this] at hqact
                refine ⟨by omega, by omega, hp2cb2⟩
            constructor
            · exact hmr2
            · exact le_trans hcb hcbmono
          · -- chips + pot conservation
            show chipsSum (s.players.set seat p2) +
              potsTotal (if v > 0 then addBet s.pm seat v else s.pm) =
              chipsSum s.players + potsTotal s.pm
            rw [chipsSum_set s.players seat player p2 hgp]
            by_cases hvpos : v > 0
            · rw [if_pos hvpos, (addBet_pos s.pm seat v hpne hvpos).1]
              omega
            · rw [if_neg hvpos]
              omega

/-- A successful `GameEngine.advance_phase` preserves the in-hand
invariant and the quantity `Σ chips + Σ pot.amount` (the side-pot
recalculation redistributes the running total without changing it). -/
theorem advancePhase_preserves (s s' : EngineState) (hinv : INV s)
    (h : advancePhase s = .ok s') :
    INV s' ∧
    chipsSum s'.players + potsTotal s'.pm = chipsSum s.players + potsTotal s.pm := by
  obtain ⟨hseat, hpne, hsync, hledpos, hallin1, hallin2, hG, hmr, hcb⟩ := hinv
  unfold advancePhase at h
  dsimp only at h
  set f : PlayerState → PlayerState :=
    fun p => { p with current_bet := 0, has_acted := false } with hfdef
  set P : List PlayerState := s.players.map f with hPdef
  set A : List Nat :=
    (P.filter (fun p => !p.is_folded && !p.is_eliminated)).map
      PlayerState.seat_index with hAdef
  set M : PotState :=
    (if s.all_in_amounts ≠ [] then
      calculateSidePots s.pm s.all_in_amounts A
    else s.pm) with hMdef
  have hMtot : potsTotal M = potsTotal s.pm := by
    rw [hMdef]
    by_cases hA : s.all_in_amounts ≠ []
    · rw [if_pos hA]
      refine calculateSidePots_total _ _ _ hsync hledpos
        (fun pv hpv => (hallin1 pv hpv).1) ?_
      intro _
      obtain ⟨pv, hpv⟩ := List.exists_mem_of_ne_nil _ hA
      obtain ⟨c, hc, hcpos⟩ := hallin2 pv hpv
      obtain ⟨-, p, hp, -, hpf, hpe⟩ := hallin1 pv hpv
      refine ⟨(pv.1, c), dictGet_mem _ _ _ hc, ?_, hcpos⟩
      rw [hAdef]
      have hmem : p ∈ s.players := by
        rw [List.mem_iff_get?]; exact ⟨pv.1, hp⟩
      have hseatp : p.seat_index = pv.1 :=
        (seatConsistent_iff _).mp hseat pv.1 p hp
      have hfp : f p ∈ P := by
        rw [hPdef]; exact List.mem_map_of_mem f hmem
      have hfilter : f p ∈ P.filter (fun q => !q.is_folded && !q.is_eliminated) := by
        rw [List.mem_filter]
        refine ⟨hfp, ?_⟩
        show (!(f p).is_folded && !(f p).is_eliminated) = true
        have h1 : (f p).is_folded = p.is_folded := rfl
        have h2 : (f p).is_eliminated = p.is_eliminated := rfl
        rw [h1, h2, hpf, hpe]; rfl
      have hin := List.mem_map_of_mem PlayerState.seat_index hfilter
      have hfs : (f p).seat_index = pv.1 := by
        have : (f p).seat_index = p.seat_index := rfl
        rw [this, hseatp]
      rw [← hfs]
      exact hin
    · rw [if_neg hA]
  have hMpots : M.pots ≠ [] := by
    rw [hMdef]
    by_cases hA : s.all_in_amounts ≠ []
    · rw [if_pos hA]; exact calculateSidePots_pots_ne_nil _ _ _ hpne
    · rw [if_neg hA]; exact hpne
  have hMcontrib : M.contributions = s.pm.contributions := by
    rw [hMdef]
    by_cases hA : s.all_in_amounts ≠ []
    · rw [if_pos hA]; exact calculateSidePots_contributions _ _ _
    · rw [if_neg hA]
  have hMsync : potsTotal M = ledgerSum M := by
    rw [hMtot, hsync]
    unfold ledgerSum
    rw [hMcontrib]
  have hMpos : ∀ pc ∈ M.contributions, 0 < pc.2 := by
    rw [hMcontrib]; exact hledpos
  have hPchips : chipsSum P = chipsSum s.players := by
    rw [hPdef]; exact chipsSum_map _ _ (fun p => rfl)
  have hPseat : seatConsistent P := by
    rw [hPdef]; exact seatConsistent_map _ _ hseat (fun p => rfl)
  have hallin1P : ∀ pv ∈ s.all_in_amounts, 0 ≤ pv.2 ∧
      ∃ p, P.get? pv.1 = some p ∧ p.is_all_in = true ∧
        p.is_folded = false ∧ p.is_eliminated = false := by
    intro pv hpv
    obtain ⟨h0, p, hp, ha, hf, he⟩ := hallin1 pv hpv
    refine ⟨h0, f p, ?_, ha, hf, he⟩
    rw [hPdef, List.get?_map, hp]
    rfl
  have hallin2P : ∀ pv ∈ s.all_in_amounts,
      ∃ c, dictGet M.contributions pv.1 = some c ∧ 0 < c := by
    rw [hMcontrib]; exact hallin2
  have hGP : ∀ cb' : Int, 0 ≤ cb' → ∀ p ∈ P, actionable p = true →
      0 < p.chips ∧ 0 ≤ p.current_bet ∧ p.current_bet ≤ cb' := by
    intro cb' h0 p hp hact
    rw [hPdef, List.mem_map] at hp
    obtain ⟨q, hq, rfl⟩ := hp
    have hactq : actionable q = true := hact
    obtain ⟨h1, -, -⟩ := hG q hq hactq
    exact ⟨h1, le_refl 0, h0⟩
  split at h
  · -- pre_flop → flop
    cases hd : dealCommunity s.deck 3 true with
    | error e => rw [hd] at h; simp at h
    | ok cd =>
        obtain ⟨cs, deck⟩ := cd
        rw [hd] at h
        dsimp only at h
        rw [Except.ok.injEq] at h
        subst h
        refine ⟨⟨hPseat, hMpots, hMsync, hMpos, hallin1P, hallin2P,
          hGP 0 le_rfl, le_refl 0, le_refl 0⟩, ?_⟩
        show chipsSum P + potsTotal M = chipsSum s.players + potsTotal s.pm
        rw [hPchips, hMtot]
  · -- flop → turn
    cases hd : dealCommunity s.deck 1 true with
    | error e => rw [hd] at h; simp at h
    | ok cd =>
        obtain ⟨cs, deck⟩ := cd
        rw [hd] at h
        dsimp only at h
        rw [Except.ok.injEq] at h
        subst h
        refine ⟨⟨hPseat, hMpots, hMsync, hMpos, hallin1P, hallin2P,
          hGP 0 le_rfl, le_refl 0, le_refl 0⟩, ?_⟩
        show chipsSum P + potsTotal M = chipsSum s.players + potsTotal s.pm
        rw [hPchips, hMtot]
  · -- turn → river
    cases hd : dealCommunity s.deck 1 true with
    | error e => rw [hd] at h; simp at h
    | ok cd =>
        obtain ⟨cs, deck⟩ := cd
        rw [hd] at h
        dsimp only at h
        rw [Except.ok.injEq] at h
        subst h
        refine ⟨⟨hPseat, hMpots, hMsync, hMpos, hallin1P, hallin2P,
          hGP 0 le_rfl, le_refl 0, le_refl 0⟩, ?_⟩
        show chipsSum P + potsTotal M = chipsSum s.players + potsTotal s.pm
        rw [hPchips, hMtot]
  · -- river → showdown
    rw [Except.ok.injEq] at h
    subst h
    refine ⟨⟨hPseat, hMpots, hMsync, hMpos, hallin1P, hallin2P,
      hGP s.bm.current_bet hcb, hmr, hcb⟩, ?_⟩
    show chipsSum P + potsTotal M = chipsSum s.players + potsTotal s.pm
    rw [hPchips, hMtot]
  · -- any other phase: players and pots recomputed in place
    rw [Except.ok.injEq] at h
    subst h
    refine ⟨⟨hPseat, hMpots, hMsync, hMpos, hallin1P, hallin2P,
      hGP s.bm.current_bet hcb, hmr, hcb⟩, ?_⟩
    show chipsSum P + potsTotal M = chipsSum s.players + potsTotal s.pm
    rw [hPchips, hMtot]

theorem trace_preserves (s s' : EngineState) (htr : HandTrace s s')
    (hinv : INV s) :
    INV s' ∧
    chipsSum s'.players + potsTotal s'.pm = chipsSum s.players + potsTotal s.pm := by
  induction htr with
  | refl => exact ⟨hinv, rfl⟩
  | tail t' t'' htr hst ih =>
      obtain ⟨hinv', heq⟩ := ih
      cases hst with
      | act seat ty amount ts a ha =>
          obtain ⟨hinv'', heq'⟩ := engineApply_preserves t' seat ty amount ts t'' a hinv' ha
          exact ⟨hinv'', by omega⟩
      | phase hp =>
          obtain ⟨hinv'', heq'⟩ := advancePhase_preserves t' t'' hinv' hp
          exact ⟨hinv'', by omega⟩

/-! ### Turn-order lemmas: the bounded clockwise search of `TurnManager` -/

theorem nasGo_mem (n : Nat) (active : List Nat) :
    ∀ (fuel cur c : Nat), nasGo n active fuel cur = some c → c ∈ active := by
  intro fuel
  induction fuel with
  | zero => intro cur c h; simp [nasGo] at h
  | succ fuel ih =>
      intro cur c h
      unfold nasGo at h
      dsimp only at h
      split at h
      · rename_i hc
        injection h with h
        subst h
        exact hc
      · exact ih _ _ h

theorem nasGo_none_spec (n : Nat) (active : List Nat) :
    ∀ (fuel cur : Nat), nasGo n active fuel cur = none →
      ∀ k, k < fuel → (cur + 1 + k) % n ∉ active := by
  intro fuel
  induction fuel with
  | zero => intro cur _ k hk; omega
  | succ fuel ih =>
      intro cur h k hk
      unfold nasGo at h
      dsimp only at h
      split at h
      · exact absurd h (by simp)
      · rename_i hc
        cases k with
        | zero => simpa using hc
        | succ k =>
            have hrec := ih ((cur + 1) % n) h k (by omega)
            have he : ((cur + 1) % n + 1 + k) % n = (cur + 1 + (k + 1)) % n := by
              have h1 : (cur + 1) % n + 1 + k = (cur + 1) % n + (1 + k) := by omega
              have h2 : cur + 1 + (k + 1) = (cur + 1) + (1 + k) := by omega
              rw [h1, h2, Nat.mod_add_mod]
            rw [← he]
            exact hrec

theorem nasGo_first (n : Nat) (active : List Nat) :
    ∀ (fuel cur c : Nat), nasGo n active fuel cur = some c →
      ∃ k, k < fuel ∧ c = (cur + 1 + k) % n ∧ c ∈ active ∧
        ∀ j, j < k → (cur + 1 + j) % n ∉ active := by
  intro fuel
  induction fuel with
  | zero => intro cur c h; simp [nasGo] at h
  | succ fuel ih =>
      intro cur c h
      unfold nasGo at h
      dsimp only at h
      split at h
      · rename_i hc
        injection h with h
        subst h
        exact ⟨0, by omega, by norm_num, hc, fun j hj => absurd hj (Nat.not_lt_zero j)⟩
      · rename_i hc
        obtain ⟨k, hk, hck, hcm, hmin⟩ := ih ((cur + 1) % n) c h
        refine ⟨k + 1, by omega, ?_, hcm, ?_⟩
        · rw [hck]
          have h1 : (cur + 1) % n + 1 + k = (cur + 1) % n + (1 + k) := by omega
          have h2 : cur + 1 + (k + 1) = (cur + 1) + (1 + k) := by omega
          rw [h1, h2, Nat.mod_add_mod]
        · intro j hj
          cases j with
          | zero => simpa using hc
          | succ j =>
              have hrec := hmin j (by omega)
              have he : ((cur + 1) % n + 1 + j) % n = (cur + 1 + (j + 1)) % n := by
                have h1 : (cur + 1) % n + 1 + j = (cur + 1) % n + (1 + j) := by omega
                have h2 : cur + 1 + (j + 1) = (cur + 1) + (1 + j) := by omega
                rw [h1, h2, Nat.mod_add_mod]
              rw [← he]
              exact hrec

theorem window_hits (n cur t : Nat) (ht : t < n) :
    ∃ j, j < n ∧ (cur + 1 + j) % n = t := by
  have hn : 0 < n := by omega
  have hrn : (cur + 1) % n < n := Nat.mod_lt _ hn
  by_cases hle : (cur + 1) % n ≤ t
  · refine ⟨t - (cur + 1) % n, by omega, ?_⟩
    have e : (cur + 1 + (t - (cur + 1) % n)) % n =
        ((cur + 1) % n + (t - (cur + 1) % n)) % n := (Nat.mod_add_mod _ _ _).symm
    rw [e, show (cur + 1) % n + (t - (cur + 1) % n) = t from by omega,
      Nat.mod_eq_of_lt ht]
  · refine ⟨t + n - (cur + 1) % n, by omega, ?_⟩
    have e : (cur + 1 + (t + n - (cur + 1) % n)) % n =
        ((cur + 1) % n + (t + n - (cur + 1) % n)) % n := (Nat.mod_add_mod _ _ _).symm
    rw [e, show (cur + 1) % n + (t + n - (cur + 1) % n) = t + n from by omega,
      Nat.add_mod_right, Nat.mod_eq_of_lt ht]

theorem window_hits_ne (n cur t : Nat) (ht : t < n) (hcur : cur < n)
    (hne : t ≠ cur) : ∃ j, j < n - 1 ∧ (cur + 1 + j) % n = t := by
  obtain ⟨j, hj, he⟩ := window_hits n cur t ht
  refine ⟨j, ?_, he⟩
  rcases Nat.lt_or_ge j (n - 1) with h | h
  · exact h
  · exfalso
    have hj1 : j = n - 1 := by omega
    subst hj1
    rw [show cur + 1 + (n - 1) = cur + n from by omega, Nat.add_mod_right,
      Nat.mod_eq_of_lt hcur] at he
    exact hne he.symm

theorem nasGo_finds (n : Nat) (active : List Nat) (cur a : Nat)
    (ha : a ∈ active) (han : a < n) :
    ∃ c, nasGo n active n cur = some c := by
  cases h : nasGo n active n cur with
  | some c => exact ⟨c, rfl⟩
  | none =>
      obtain ⟨j, hj, he⟩ := window_hits n cur a han
      have hno := nasGo_none_spec n active n cur h j hj
      rw [he] at hno
      exact absurd ha hno

theorem nasGo_ne_start (n : Nat) (active : List Nat) (cur c o : Nat)
    (h : nasGo n active n cur = some c) (hcur : cur < n)
    (ho : o ∈ active) (hon : o < n) (hoc : o ≠ cur) : c ≠ cur := by
  intro hcc
  subst hcc
  obtain ⟨k, hk, hck, hcm, hmin⟩ := nasGo_first n active n c c h
  have hn : 0 < n := by omega
  have hkn : k = n - 1 := by
    rcases Nat.lt_or_ge (c + 1 + k) n with hlt | hge
    · rw [Nat.mod_eq_of_lt hlt] at hck; omega
    · rw [Nat.mod_eq_sub_mod hge, Nat.mod_eq_of_lt (by omega)] at hck
      omega
  subst hkn
  obtain ⟨j, hj, he⟩ := window_hits_ne n c o hon hcur hoc
  have := hmin j hj
  rw [he] at this
  exact this ho

theorem exists_ne_mem (l : List Nat) (hnd : l.Nodup) (h2 : 2 ≤ l.length)
    (z : Nat) : ∃ o ∈ l, o ≠ z := by
  match l, hnd, h2 with
  | a :: b :: rest, hnd, _ =>
      have hab : a ≠ b := by
        rw [List.nodup_cons] at hnd
        exact fun hc => hnd.1 (by rw [hc]; exact List.mem_cons_self _ _)
      by_cases haz : a = z
      · exact ⟨b, by simp, by rw [← haz]; exact fun hc => hab hc.symm⟩
      · exact ⟨a, by simp, haz⟩

/-! ### Active-seat lemmas -/

theorem seatConsistent_map_range (players : List PlayerState)
    (h : seatConsistent players) :
    players.map PlayerState.seat_index = List.range players.length := by
  apply List.ext_get?
  intro i
  rw [List.get?_map]
  rcases Nat.lt_or_ge i players.length with hlt | hge
  · cases hg : players.get? i with
    | none => exact absurd (List.get?_eq_none.mp hg) (by omega)
    | some p =>
        rw [List.get?_range hlt]
        simp only [Option.map_some']
        rw [(seatConsistent_iff _).mp h i p hg]
  · rw [List.get?_eq_none.mpr hge,
      List.get?_eq_none.mpr (by simpa using hge)]
    rfl

theorem mem_activeSeatsOf (players : List PlayerState) (a : Nat) :
    a ∈ activeSeatsOf players ↔
      ∃ p ∈ players, p.is_eliminated = false ∧ p.seat_index = a := by
  unfold activeSeatsOf
  rw [List.mem_dedup, List.mem_map]
  constructor
  · rintro ⟨p, hp, rfl⟩
    rw [List.mem_filter] at hp
    exact ⟨p, hp.1, by simpa using hp.2, rfl⟩
  · rintro ⟨p, hp, he, rfl⟩
    exact ⟨p, List.mem_filter.mpr ⟨hp, by simp [he]⟩, rfl⟩

theorem activeSeatsOf_get (players : List PlayerState) (a : Nat)
    (hsc : seatConsistent players) (ha : a ∈ activeSeatsOf players) :
    a < players.length ∧
      ∃ p, players.get? a = some p ∧ p.is_eliminated = false := by
  rw [mem_activeSeatsOf] at ha
  obtain ⟨p, hp, he, rfl⟩ := ha
  obtain ⟨i, hi⟩ := List.mem_iff_get?.mp hp
  have hsi : p.seat_index = i := (seatConsistent_iff _).mp hsc i p hi
  rw [hsi]
  exact ⟨(List.get?_eq_some.mp hi).choose, p, hi, he⟩

theorem activeSeatsOf_length (players : List PlayerState)
    (hsc : seatConsistent players) :
    (activeSeatsOf players).length =
      (players.filter (fun p => !p.is_eliminated)).length := by
  unfold activeSeatsOf
  have hnd : ((players.filter (fun p => !p.is_eliminated)).map
      PlayerState.seat_index).Nodup := by
    have hsub : List.Sublist
        ((players.filter (fun p => !p.is_eliminated)).map PlayerState.seat_index)
        (players.map PlayerState.seat_index) :=
      List.Sublist.map _ (List.filter_sublist _)
    have hall : (players.map PlayerState.seat_index).Nodup := by
      rw [seatConsistent_map_range players hsc]
      exact List.nodup_range _
    exact hsub.nodup hall
  rw [List.dedup_eq_self.mpr hnd, List.length_map]

/-- Where `advance_dealer` followed by `get_blind_positions` lands with at
least two live seats: on two distinct live seats. -/
theorem blindPositions_spec (n : Nat) (dealer : Nat)
    (players : List PlayerState) (hsc : seatConsistent players)
    (hn : players.length = n)
    (h2 : 2 ≤ (players.filter (fun p => !p.is_eliminated)).length) :
    (getBlindPositions n (advanceDealer n dealer players) players).1 ∈
        activeSeatsOf players ∧
      (getBlindPositions n (advanceDealer n dealer players) players).2 ∈
        activeSeatsOf players ∧
      (getBlindPositions n (advanceDealer n dealer players) players).1 ≠
        (getBlindPositions n (advanceDealer n dealer players) players).2 := by
  have hlen : 2 ≤ (activeSeatsOf players).length := by
    rw [activeSeatsOf_length players hsc]; exact h2
  have hne : activeSeatsOf players ≠ [] := by
    intro hc; rw [hc] at hlen; simp at hlen
  have hnd : (activeSeatsOf players).Nodup := List.nodup_dedup _
  have hlt : ∀ a ∈ activeSeatsOf players, a < n := fun a ha => by
    rw [← hn]; exact (activeSeatsOf_get players a hsc ha).1
  obtain ⟨a0, ha0⟩ := List.exists_mem_of_ne_nil _ hne
  -- the dealer button lands on a live seat
  obtain ⟨d1, hd1⟩ := nasGo_finds n (activeSeatsOf players) dealer a0 ha0 (hlt a0 ha0)
  have hdadv : advanceDealer n dealer players = d1 := by
    unfold advanceDealer
    rw [if_neg hne, hd1]
    rfl
  have hd1m : d1 ∈ activeSeatsOf players := nasGo_mem n _ n dealer d1 hd1
  have hd1n : d1 < n := hlt d1 hd1m
  rw [hdadv]
  unfold getBlindPositions
  by_cases hl2 : (activeSeatsOf players).length = 2
  · rw [if_pos hl2]
    obtain ⟨o, hom, hod⟩ := exists_ne_mem _ hnd hlen d1
    obtain ⟨b1, hb1⟩ := nasGo_finds n (activeSeatsOf players) d1 o hom (hlt o hom)
    have hbadv : nextActiveSeat n d1 (activeSeatsOf players) = b1 := by
      unfold nextActiveSeat
      rw [hb1]
      rfl
    have hb1m : b1 ∈ activeSeatsOf players := nasGo_mem n _ n d1 b1 hb1
    have hb1d : b1 ≠ d1 :=
      nasGo_ne_start n _ d1 b1 o hb1 hd1n hom (hlt o hom) hod
    dsimp only
    rw [hbadv]
    exact ⟨hd1m, hb1m, fun hc => hb1d hc.symm⟩
  · rw [if_neg hl2]
    obtain ⟨s1, hs1⟩ := nasGo_finds n (activeSeatsOf players) d1 a0 ha0 (hlt a0 ha0)
    have hsadv : nextActiveSeat n d1 (activeSeatsOf players) = s1 := by
      unfold nextActiveSeat
      rw [hs1]
      rfl
    have hs1m : s1 ∈ activeSeatsOf players := nasGo_mem n _ n d1 s1 hs1
    have hs1n : s1 < n := hlt s1 hs1m
    obtain ⟨o, hom, hos⟩ := exists_ne_mem _ hnd hlen s1
    obtain ⟨b1, hb1⟩ := nasGo_finds n (activeSeatsOf players) s1 o hom (hlt o hom)
    have hbadv : nextActiveSeat n s1 (activeSeatsOf players) = b1 := by
      unfold nextActiveSeat
      rw [hb1]
      rfl
    have hb1m : b1 ∈ activeSeatsOf players := nasGo_mem n _ n s1 b1 hb1
    have hb1s : b1 ≠ s1 :=
      nasGo_ne_start n _ s1 b1 o hb1 hs1n hom (hlt o hom) hos
    dsimp only
    rw [hsadv, hbadv]
    exact ⟨hs1m, hb1m, fun hc => hb1s hc.symm⟩

/-! ### The blind-posting loop of `start_hand` -/

theorem mem_dictSet (d : Dict) (k : Nat) (v : Int) :
    ∀ pv ∈ dictSet d k v, pv = (k, v) ∨ pv ∈ d := by
  induction d with
  | nil =>
      intro pv hpv
      simp only [dictSet, List.mem_singleton] at hpv
      exact Or.inl hpv
  | cons hd tl ih =>
      intro pv hpv
      obtain ⟨k', v'⟩ := hd
      simp only [dictSet] at hpv
      by_cases hk : k' = k
      · rw [if_pos hk] at hpv
        rcases List.mem_cons.mp hpv with h | h
        · subst hk; exact Or.inl (by rw [h])
        · exact Or.inr (List.mem_cons_of_mem _ h)
      · rw [if_neg hk] at hpv
        rcases List.mem_cons.mp hpv with h | h
        · subst h
          exact Or.inr (List.mem_cons_self _ _)
        · rcases ih pv h with h' | h'
          · exact Or.inl h'
          · exact Or.inr (List.mem_cons_of_mem _ h')

theorem blindMid_init (big : Int) (P : List PlayerState)
    (hsc : seatConsistent P) (hbig : 0 ≤ big)
    (hG : ∀ p ∈ P, actionable p = true → 0 < p.chips ∧ p.current_bet = 0) :
    BlindMid big (chipsSum P) P PotState.init [] := by
  refine ⟨hsc, by simp [PotState.init], by simp [potsTotal, ledgerSum,
    PotState.init, valSum], by simp [PotState.init], by simp, by simp, ?_, ?_⟩
  · intro p hp hact
    obtain ⟨h1, h2⟩ := hG p hp hact
    exact ⟨h1, by omega, by omega⟩
  · show chipsSum P + potsTotal PotState.init = chipsSum P
    simp [potsTotal, PotState.init]

/-- Posting one blind keeps the loop facts: the clipped amount moves from
the stack into the main pot, a player left on zero chips is flagged
all-in and recorded. -/
theorem postOne_mid (big base : Int) (P : List PlayerState) (pm : PotState)
    (allIn : Dict) (acts : List Action) (t : Nat) (a : Int) (lb : BlindLabel)
    (p : PlayerState)
    (hg : P.get? t = some p) (hcb : p.current_bet = 0) (hfo : p.is_folded = false)
    (hai : p.is_all_in = false) (hel : p.is_eliminated = false)
    (ha : 0 < a) (hax : a ≤ p.chips) (hbig : a ≤ big)
    (hmid : BlindMid big base P pm allIn) :
    ∃ P' allIn',
      postOne (P, pm, allIn, acts) (t, a, lb) =
        .ok (P', addBet pm t a, allIn', acts ++ [⟨t, .post_blind, some a, ""⟩]) ∧
      BlindMid big base P' (addBet pm t a) allIn' ∧
      (∀ j, j ≠ t → P'.get? j = P.get? j) := by
  obtain ⟨hsc, hpne, hsync, hledpos, hallin1, hallin2, hG, hcons⟩ := hmid
  have hlt : t < P.length := (List.get?_eq_some.mp hg).choose
  have hadd := addBet_pos pm t a hpne ha
  have hledD := dictGetD_nonneg pm.contributions t hledpos
  by_cases h0 : p.chips - a = 0
  · -- the posting puts the player all-in
    refine ⟨P.set t
      { p with
        chips := p.chips - a,
        current_bet := a,
        is_all_in := true },
      dictSet allIn t a, ?_, ?_, ?_⟩
    · unfold postOne
      dsimp only
      rw [hg]
      dsimp only
      rw [if_pos h0]
    · refine ⟨?_, hadd.2.2, ?_, ?_, ?_, ?_, ?_, ?_⟩
      · exact seatConsistent_set _ _ _ _ hsc hg rfl
      · rw [hadd.1, hsync]
        unfold ledgerSum
        rw [hadd.2.1, valSum_dictAdd]
      · rw [hadd.2.1]
        exact dictAdd_pos_entries _ _ _ hledpos ha
      · intro pv hpv
        rcases mem_dictSet allIn t a pv hpv with h | hm
        · subst h
          refine ⟨by dsimp only; omega, _, List.get?_set_eq_of_lt _ hlt, rfl, hfo, hel⟩
        · obtain ⟨h1, q, hq, hqa, hqf, hqe⟩ := hallin1 pv hm
          have hne' : pv.1 ≠ t := by
            intro hc
            rw [hc, hg] at hq
            injection hq with hq
            rw [← hq, hai] at hqa
            cases hqa
          refine ⟨h1, q, ?_, hqa, hqf, hqe⟩
          rw [List.get?_set_ne _ _ (fun hc => hne' hc.symm)]
          exact hq
      · intro pv hpv
        rw [hadd.2.1]
        rcases mem_dictSet allIn t a pv hpv with h | hm
        · subst h
          exact ⟨dictGetD pm.contributions t + a, dictGet_dictAdd_self _ _ _,
            by omega⟩
        · obtain ⟨c, hc, hcpos⟩ := hallin2 pv hm
          obtain ⟨-, q, hq, hqa, -, -⟩ := hallin1 pv hm
          have hne : pv.1 ≠ t := by
            intro hc'
            rw [hc', hg] at hq
            injection hq with hq
            rw [← hq, hai] at hqa
            cases hqa
          exact ⟨c, by rw [dictGet_dictAdd_other _ _ _ _ hne]; exact hc, hcpos⟩
      · intro q hq hqact
        rcases List.mem_or_eq_of_mem_set hq with hq' | hq'
        · exact hG q hq' hqact
        · subst hq'
          simp [actionable] at hqact
      · rw [chipsSum_set P t p _ hg, hadd.1]
        dsimp only
        omega
    · intro j hj
      rw [List.get?_set_ne _ _ (fun hc => hj hc.symm)]
  · -- the player keeps a positive stack
    refine ⟨P.set t { p with chips := p.chips - a, current_bet := a },
      allIn, ?_, ?_, ?_⟩
    · unfold postOne
      dsimp only
      rw [hg]
      dsimp only
      rw [if_neg h0]
    · refine ⟨?_, hadd.2.2, ?_, ?_, ?_, ?_, ?_, ?_⟩
      · exact seatConsistent_set _ _ _ _ hsc hg rfl
      · rw [hadd.1, hsync]
        unfold ledgerSum
        rw [hadd.2.1, valSum_dictAdd]
      · rw [hadd.2.1]
        exact dictAdd_pos_entries _ _ _ hledpos ha
      · intro pv hpv
        obtain ⟨h1, q, hq, hqa, hqf, hqe⟩ := hallin1 pv hpv
        have hne : pv.1 ≠ t := by
          intro hc
          rw [hc, hg] at hq
          injection hq with hq
          rw [← hq, hai] at hqa
          cases hqa
        refine ⟨h1, q, ?_, hqa, hqf, hqe⟩
        rw [List.get?_set_ne _ _ (fun hc => hne hc.symm)]
        exact hq
      · intro pv hpv
        rw [hadd.2.1]
        obtain ⟨c, hc, hcpos⟩ := hallin2 pv hpv
        obtain ⟨-, q, hq, hqa, -, -⟩ := hallin1 pv hpv
        have hne : pv.1 ≠ t := by
          intro hc'
          rw [hc', hg] at hq
          injection hq with hq
          rw [← hq, hai] at hqa
          cases hqa
        exact ⟨c, by rw [dictGet_dictAdd_other _ _ _ _ hne]; exact hc, hcpos⟩
      · intro q hq hqact
        rcases List.mem_or_eq_of_mem_set hq with hq' | hq'
        · exact hG q hq' hqact
        · subst hq'
          refine ⟨by dsimp only; omega, by dsimp only; omega, ?_⟩
          dsimp only
          omega
      · rw [chipsSum_set P t p _ hg, hadd.1]
        dsimp only
        omega
    · intro j hj
      rw [List.get?_set_ne _ _ (fun hc => hj hc.symm)]

/-! ### Hole-card dealing touches only `hole_cards` -/

theorem resetForHand_fields (p : PlayerState) :
    (resetForHand p).chips = p.chips ∧
    (resetForHand p).seat_index = p.seat_index ∧
    (resetForHand p).is_eliminated = p.is_eliminated ∧
    (p.is_eliminated = false →
      (resetForHand p).is_folded = false ∧ (resetForHand p).is_all_in = false ∧
      (resetForHand p).current_bet = 0) := by
  unfold resetForHand
  by_cases h : p.is_eliminated = true
  · rw [if_pos h]
    exact ⟨rfl, rfl, rfl, fun hc => by rw [h] at hc; cases hc⟩
  · rw [if_neg h]
    exact ⟨rfl, rfl, rfl, fun _ => ⟨rfl, rfl, rfl⟩⟩

theorem assignHoleCards_core (ps : List PlayerState) :
    ∀ (hs : List (List Card)),
      (assignHoleCards ps hs).map coreOf = ps.map coreOf := by
  induction ps with
  | nil => intro hs; rfl
  | cons p rest ih =>
      intro hs
      unfold assignHoleCards
      by_cases h : p.is_eliminated = true
      · rw [if_pos h, List.map_cons, List.map_cons, ih hs]
      · rw [if_neg h]
        cases hs with
        | nil => rw [List.map_cons, List.map_cons, ih []]
        | cons hd tl =>
            rw [List.map_cons, List.map_cons, ih tl]
            rfl

theorem dealHoleCards_core (ps : List PlayerState) (d : DeckState)
    (ps' : List PlayerState) (d' : DeckState)
    (h : dealHoleCards ps d = .ok (ps', d')) :
    ps'.map coreOf = ps.map coreOf := by
  unfold dealHoleCards at h
  dsimp only at h
  split at h
  · rw [Except.ok.injEq, Prod.mk.injEq] at h
    rw [← h.1]
  · split at h
    · rename_i e heq
      exact absurd h (by simp)
    · rename_i pr heq
      rw [Except.ok.injEq, Prod.mk.injEq] at h
      rw [← h.1, assignHoleCards_core]

theorem core_eq_fields {p q : PlayerState} (h : coreOf p = coreOf q) :
    p.seat_index = q.seat_index ∧ p.chips = q.chips ∧
    p.is_folded = q.is_folded ∧ p.is_all_in = q.is_all_in ∧
    p.is_eliminated = q.is_eliminated ∧ p.current_bet = q.current_bet := by
  unfold coreOf at h
  simp only [Prod.mk.injEq] at h
  exact ⟨h.1, h.2.1, h.2.2.1, h.2.2.2.1, h.2.2.2.2.1, h.2.2.2.2.2.1⟩

theorem core_eq_actionable {p q : PlayerState} (h : coreOf p = coreOf q) :
    actionable p = actionable q := by
  obtain ⟨-, -, h3, h4, h5, -⟩ := core_eq_fields h
  unfold actionable
  rw [h3, h4, h5]

theorem coreMap_get? {ps qs : List PlayerState}
    (h : ps.map coreOf = qs.map coreOf) (i : Nat) (p : PlayerState)
    (hp : ps.get? i = some p) :
    ∃ q, qs.get? i = some q ∧ coreOf p = coreOf q := by
  have h2 := congrArg (fun l => l.get? i) h
  dsimp only at h2
  rw [List.get?_map, List.get?_map, hp] at h2
  cases hq : qs.get? i with
  | none => rw [hq] at h2; simp at h2
  | some q =>
      rw [hq] at h2
      simp only [Option.map_some'] at h2
      exact ⟨q, rfl, by injection h2⟩

theorem coreMap_chipsSum {ps qs : List PlayerState}
    (h : ps.map coreOf = qs.map coreOf) : chipsSum ps = chipsSum qs := by
  have h2 := congrArg
    (List.map (fun c : Nat × Int × Bool × Bool × Bool × Int × Bool => c.2.1)) h
  rw [List.map_map, List.map_map] at h2
  have hfe : ((fun c : Nat × Int × Bool × Bool × Bool × Int × Bool => c.2.1) ∘
      coreOf) = PlayerState.chips := funext (fun p => rfl)
  rw [hfe] at h2
  unfold chipsSum
  rw [h2]

theorem coreMap_seatConsistent {ps qs : List PlayerState}
    (h : ps.map coreOf = qs.map coreOf) (hq : seatConsistent qs) :
    seatConsistent ps := by
  rw [seatConsistent_iff] at hq ⊢
  intro i p hp
  obtain ⟨q, hgq, hcq⟩ := coreMap_get? h i p hp
  rw [(core_eq_fields hcq).1]
  exact hq i q hgq

/-- `start_hand` establishes the in-hand invariant, and the blinds move
chips into the pot without changing `Σ chips + Σ pot.amount`. -/
theorem startHand_establishes (shuf : Shuffler) (s0 s1 : EngineState)
    (hwf : StartWF s0) (h : startHand shuf s0 = .ok s1) :
    INV s1 ∧ chipsSum s1.players + potsTotal s1.pm = chipsSum s0.players := by
  obtain ⟨hnum, hsc0, h2, hchips0, hsb0, hsbb, hdlt⟩ := hwf
  unfold startHand at h
  dsimp only at h
  set R : List PlayerState := s0.players.map resetForHand with hR
  have hscR : seatConsistent R := by
    rw [hR]
    exact seatConsistent_map _ _ hsc0 (fun p => (resetForHand_fields p).2.1)
  have hchR : chipsSum R = chipsSum s0.players := by
    rw [hR]
    exact chipsSum_map _ _ (fun p => (resetForHand_fields p).1)
  have hnR : R.length = s0.num_seats := by
    rw [hR, List.length_map, hnum]
  have h2R : 2 ≤ (R.filter (fun p => !p.is_eliminated)).length := by
    rw [hR, List.filter_map, List.length_map]
    have hfc : s0.players.filter ((fun p => !p.is_eliminated) ∘ resetForHand) =
        s0.players.filter (fun p => !p.is_eliminated) := by
      apply List.filter_congr
      intro q _
      dsimp only [Function.comp]
      rw [(resetForHand_fields q).2.2.1]
    rw [hfc]
    exact h2
  have hGR : ∀ p ∈ R, actionable p = true → 0 < p.chips ∧ p.current_bet = 0 := by
    intro p hp hact
    rw [hR, List.mem_map] at hp
    obtain ⟨q, hq, rfl⟩ := hp
    have h3 := hact
    simp only [actionable, Bool.and_eq_true, Bool.not_eq_true'] at h3
    have hqe : q.is_eliminated = false := by
      rw [← (resetForHand_fields q).2.2.1]
      exact h3.2
    obtain ⟨hf, ha, hc⟩ := (resetForHand_fields q).2.2.2 hqe
    rw [(resetForHand_fields q).1, hc]
    exact ⟨hchips0 q hq hqe, rfl⟩
  have hbig : 0 ≤ bigBlind s0.blind := le_trans hsb0 hsbb
  have hmid0 : BlindMid (bigBlind s0.blind) (chipsSum R) R PotState.init [] :=
    blindMid_init _ R hscR hbig hGR
  obtain ⟨hsbm, hbbm, hsbb_ne⟩ := blindPositions_spec s0.num_seats s0.dealer R
    hscR hnR h2R
  set sb0 : Nat := (getBlindPositions s0.num_seats
    (advanceDealer s0.num_seats s0.dealer R) R).1 with hsb0def
  set bb0 : Nat := (getBlindPositions s0.num_seats
    (advanceDealer s0.num_seats s0.dealer R) R).2 with hbb0def
  obtain ⟨hsblt, pSB, hgsb, hsbel⟩ := activeSeatsOf_get R sb0 hscR hsbm
  obtain ⟨hbblt, pBB, hgbb, hbbel⟩ := activeSeatsOf_get R bb0 hscR hbbm
  have hfresh : ∀ (t : Nat) (p : PlayerState), R.get? t = some p →
      p.is_eliminated = false →
      p.current_bet = 0 ∧ p.is_folded = false ∧ p.is_all_in = false ∧
        0 < p.chips := by
    intro t p hg hel
    have hpm : p ∈ R := by rw [List.mem_iff_get?]; exact ⟨t, hg⟩
    rw [hR, List.mem_map] at hpm
    obtain ⟨q, hq, rfl⟩ := hpm
    have hqe : q.is_eliminated = false := by
      rw [← (resetForHand_fields q).2.2.1]
      exact hel
    obtain ⟨hf, ha, hc⟩ := (resetForHand_fields q).2.2.2 hqe
    rw [hc, hf, ha, (resetForHand_fields q).1]
    exact ⟨rfl, rfl, rfl, hchips0 q hq hqe⟩
  obtain ⟨hsbcb, hsbf, hsba, hsbch⟩ := hfresh sb0 pSB hgsb hsbel
  obtain ⟨hbbcb, hbbf, hbba, hbbch⟩ := hfresh bb0 pBB hgbb hbbel
  rw [hgsb, hgbb] at h
  dsimp only at h
  -- run the posting loop over the explicit posting list
  have hrun : ∃ P2 pm2 A2 acts2,
      postBlindsLoop (R, PotState.init, [], [])
        (getBlindPosting s0.blind sb0 bb0 pSB.chips pBB.chips) =
        .ok (P2, pm2, A2, acts2) ∧
      BlindMid (bigBlind s0.blind) (chipsSum R) P2 pm2 A2 := by
    by_cases hsbA : min (smallBlind s0.blind) pSB.chips > 0
    · obtain ⟨P1, A1, heq1, hmid1, hstable1⟩ :=
        postOne_mid (bigBlind s0.blind) (chipsSum R) R PotState.init [] []
          sb0 (min (smallBlind s0.blind) pSB.chips) .small_blind pSB
          hgsb hsbcb hsbf hsba hsbel hsbA (min_le_right _ _)
          (le_trans (min_le_left _ _) hsbb) hmid0
      have hgbb1 : P1.get? bb0 = some pBB := by
        rw [hstable1 bb0 (fun hc => hsbb_ne hc.symm)]
        exact hgbb
      by_cases hbbA : min (bigBlind s0.blind) pBB.chips > 0
      · obtain ⟨P2, A2, heq2, hmid2, hstable2⟩ :=
          postOne_mid (bigBlind s0.blind) (chipsSum R) P1
            (addBet PotState.init sb0 (min (smallBlind s0.blind) pSB.chips)) A1
            ([] ++ [⟨sb0, .post_blind, some (min (smallBlind s0.blind) pSB.chips), ""⟩])
            bb0 (min (bigBlind s0.blind) pBB.chips) .big_blind pBB
            hgbb1 hbbcb hbbf hbba hbbel hbbA (min_le_right _ _)
            (min_le_left _ _) hmid1
        refine ⟨P2,
          addBet (addBet PotState.init sb0 (min (smallBlind s0.blind) pSB.chips))
            bb0 (min (bigBlind s0.blind) pBB.chips), A2,
          ([] ++ [⟨sb0, .post_blind, some (min (smallBlind s0.blind) pSB.chips), ""⟩]) ++
            [⟨bb0, .post_blind, some (min (bigBlind s0.blind) pBB.chips), ""⟩],
          ?_, hmid2⟩
        have hL : getBlindPosting s0.blind sb0 bb0 pSB.chips pBB.chips =
            [(sb0, min (smallBlind s0.blind) pSB.chips, .small_blind),
             (bb0, min (bigBlind s0.blind) pBB.chips, .big_blind)] := by
          unfold getBlindPosting
          dsimp only
          rw [if_pos hsbA, if_pos hbbA]
          rfl
        rw [hL]
        unfold postBlindsLoop
        rw [heq1]
        dsimp only
        unfold postBlindsLoop
        rw [heq2]
        rfl
      · obtain ⟨P1', A1', heq1', hmid1', hstable1'⟩ :=
          postOne_mid (bigBlind s0.blind) (chipsSum R) R PotState.init [] []
            sb0 (min (smallBlind s0.blind) pSB.chips) .small_blind pSB
            hgsb hsbcb hsbf hsba hsbel hsbA (min_le_right _ _)
            (le_trans (min_le_left _ _) hsbb) hmid0
        refine ⟨P1',
          addBet PotState.init sb0 (min (smallBlind s0.blind) pSB.chips), A1',
          [] ++ [⟨sb0, .post_blind, some (min (smallBlind s0.blind) pSB.chips), ""⟩],
          ?_, hmid1'⟩
        have hL : getBlindPosting s0.blind sb0 bb0 pSB.chips pBB.chips =
            [(sb0, min (smallBlind s0.blind) pSB.chips, .small_blind)] := by
          unfold getBlindPosting
          dsimp only
          rw [if_pos hsbA, if_neg hbbA]
          rfl
        rw [hL]
        unfold postBlindsLoop
        rw [heq1']
        rfl
    · by_cases hbbA : min (bigBlind s0.blind) pBB.chips > 0
      · obtain ⟨P1, A1, heq1, hmid1, hstable1⟩ :=
          postOne_mid (bigBlind s0.blind) (chipsSum R) R PotState.init [] []
            bb0 (min (bigBlind s0.blind) pBB.chips) .big_blind pBB
            hgbb hbbcb hbbf hbba hbbel hbbA (min_le_right _ _)
            (min_le_left _ _) hmid0
        refine ⟨P1,
          addBet PotState.init bb0 (min (bigBlind s0.blind) pBB.chips), A1,
          [] ++ [⟨bb0, .post_blind, some (min (bigBlind s0.blind) pBB.chips), ""⟩],
          ?_, hmid1⟩
        have hL : getBlindPosting s0.blind sb0 bb0 pSB.chips pBB.chips =
            [(bb0, min (bigBlind s0.blind) pBB.chips, .big_blind)] := by
          unfold getBlindPosting
          dsimp only
          rw [if_neg hsbA, if_pos hbbA]
          rfl
        rw [hL]
        unfold postBlindsLoop
        rw [heq1]
        rfl
      · refine ⟨R, PotState.init, [], [], ?_, hmid0⟩
        have hL : getBlindPosting s0.blind sb0 bb0 pSB.chips pBB.chips = [] := by
          unfold getBlindPosting
          dsimp only
          rw [if_neg hsbA, if_neg hbbA]
          rfl
        rw [hL]
        rfl
  obtain ⟨P2, pm2, A2, acts2, hloop, hmid2⟩ := hrun
  rw [hloop] at h
  dsimp only at h
  cases hdeal : dealHoleCards P2 (deckShuffle shuf (deckReset s0.deck)) with
  | error e => rw [hdeal] at h; simp at h
  | ok pr =>
      obtain ⟨P3, deck3⟩ := pr
      rw [hdeal] at h
      dsimp only at h
      rw [Except.ok.injEq] at h
      subst h
      have hcore : P3.map coreOf = P2.map coreOf :=
        dealHoleCards_core P2 _ P3 deck3 hdeal
      obtain ⟨hsc2, hpne2, hsync2, hpos2, hallin12, hallin22, hG2, hcons2⟩ := hmid2
      refine ⟨⟨coreMap_seatConsistent hcore hsc2, hpne2, hsync2, hpos2,
        ?_, hallin22, ?_, hbig, hbig⟩, ?_⟩
      · intro pv hpv
        obtain ⟨h1, q, hq, hqa, hqf, hqe⟩ := hallin12 pv hpv
        obtain ⟨q', hq', hcq⟩ := coreMap_get? hcore.symm pv.1 q hq
        obtain ⟨-, -, hf, ha, he, -⟩ := core_eq_fields hcq
        exact ⟨h1, q', hq', by rw [← ha]; exact hqa, by rw [← hf]; exact hqf,
          by rw [← he]; exact hqe⟩
      · intro p hp hact
        obtain ⟨i, hi⟩ := List.mem_iff_get?.mp hp
        obtain ⟨q, hgq, hcq⟩ := coreMap_get? hcore i p hi
        have hqm : q ∈ P2 := by rw [List.mem_iff_get?]; exact ⟨i, hgq⟩
        have hqa : actionable q = true := by
          rw [← core_eq_actionable hcq]; exact hact
        obtain ⟨hc1, hc2, hc3⟩ := hG2 q hqm hqa
        obtain ⟨-, hch, -, -, -, hcb⟩ := core_eq_fields hcq
        exact ⟨by rw [hch]; exact hc1, by rw [hcb]; exact hc2,
          by rw [hcb]; exact hc3⟩
      · show chipsSum P3 + potsTotal pm2 = chipsSum s0.players
        rw [coreMap_chipsSum hcore, ← hchR]
        exact hcons2

/-! ### Keys appearing in a distribution -/

theorem dictAdd_fst_sub (k : Nat) (v : Int) :
    ∀ (d : Dict) (a : Nat), a ∈ (dictAdd d k v).map Prod.fst →
      a = k ∨ a ∈ d.map Prod.fst := by
  intro d
  induction d with
  | nil =>
      intro a ha
      simp only [dictAdd, List.map_cons, List.map_nil, List.mem_singleton] at ha
      exact Or.inl ha
  | cons hd tl ih =>
      intro a ha
      obtain ⟨k', v'⟩ := hd
      simp only [dictAdd] at ha
      by_cases hk : k' = k
      · rw [if_pos hk] at ha
        simp only [List.map_cons, List.mem_cons] at ha
        rcases ha with h | h
        · exact Or.inl (h.trans hk)
        · exact Or.inr (by simp only [List.map_cons, List.mem_cons]; exact Or.inr h)
      · rw [if_neg hk] at ha
        simp only [List.map_cons, List.mem_cons] at ha
        rcases ha with h | h
        · exact Or.inr (by simp only [List.map_cons, List.mem_cons]; exact Or.inl h)
        · rcases ih a h with h' | h'
          · exact Or.inl h'
          · exact Or.inr (by simp only [List.map_cons, List.mem_cons]; exact Or.inr h')

theorem creditLoop_fst (share rem : Int) :
    ∀ (xs : List Nat) (j : Nat) (w : Dict) (a : Nat),
      a ∈ (creditLoop share rem xs j w).map Prod.fst →
      a ∈ xs ∨ a ∈ w.map Prod.fst := by
  intro xs
  induction xs with
  | nil => intro j w a h; exact Or.inr h
  | cons x xs ih =>
      intro j w a h
      simp only [creditLoop] at h
      rcases ih _ _ a h with h' | h'
      · exact Or.inl (List.mem_cons_of_mem _ h')
      · rcases dictAdd_fst_sub x _ w a h' with h'' | h''
        · exact Or.inl (by rw [h'']; exact List.mem_cons_self _ _)
        · exact Or.inr h''

theorem distributeGo_fst :
    ∀ (pots : List Pot) (wpp : List (List Nat)) (w : Dict) (a : Nat),
      a ∈ (distributeGo w pots wpp).map Prod.fst →
      a ∈ w.map Prod.fst ∨ ∃ l ∈ wpp, a ∈ l := by
  intro pots
  induction pots with
  | nil => intro wpp w a h; exact Or.inl h
  | cons pot pots ih =>
      intro wpp w a h
      cases wpp with
      | nil => exact Or.inl h
      | cons ws wss =>
          simp only [distributeGo] at h
          rcases ih wss _ a h with h' | ⟨l, hl, hal⟩
          · by_cases hws : ws = []
            · rw [if_pos hws] at h'
              exact Or.inl h'
            · rw [if_neg hws] at h'
              unfold distributeOne at h'
              rcases creditLoop_fst _ _ ws 0 w a h' with h'' | h''
              · exact Or.inr ⟨ws, List.mem_cons_self _ _, h''⟩
              · exact Or.inl h''
          · exact Or.inr ⟨l, List.mem_cons_of_mem _ hl, hal⟩

/-! ### Showdown winner bookkeeping -/

theorem evalAll_seats (score : ScoreFn) (board : List Card) :
    ∀ (hands : List (Nat × List Card)) (rs : List HandResult),
      evalAll score board hands = .ok rs →
      rs.map HandResult.player_index = hands.map Prod.fst := by
  intro hands
  induction hands with
  | nil =>
      intro rs h
      unfold evalAll at h
      rw [Except.ok.injEq] at h
      rw [← h]
      rfl
  | cons hd tl ih =>
      intro rs h
      obtain ⟨seat, hole⟩ := hd
      unfold evalAll at h
      cases he : evaluateHandRank score hole board with
      | error e => rw [he] at h; simp at h
      | ok rk =>
          rw [he] at h
          dsimp only at h
          cases ha : evalAll score board tl with
          | error e => rw [ha] at h; simp at h
          | ok rs' =>
              rw [ha] at h
              dsimp only at h
              rw [Except.ok.injEq] at h
              rw [← h]
              simp only [List.map_cons]
              rw [ih rs' ha]

theorem compareHands_spec (score : ScoreFn) (hands : List (Nat × List Card))
    (board : List Card) (results : List HandResult)
    (h : compareHands score hands board = .ok results) :
    (∀ r ∈ results, r.player_index ∈ hands.map Prod.fst) ∧
    results.length = hands.length := by
  unfold compareHands at h
  cases ha : evalAll score board hands with
  | error e => rw [ha] at h; simp at h
  | ok rs =>
      rw [ha] at h
      dsimp only at h
      rw [Except.ok.injEq] at h
      have hperm : List.Perm
          (rs.insertionSort (fun a b => a.hand_rank ≤ b.hand_rank)) rs :=
        List.perm_insertionSort _ _
      constructor
      · intro r hr
        rw [← h] at hr
        have hmem : r ∈ rs := hperm.mem_iff.mp hr
        rw [← evalAll_seats score board hands rs ha]
        exact List.mem_map_of_mem _ hmem
      · rw [← h, hperm.length_eq]
        have := congrArg List.length (evalAll_seats score board hands rs ha)
        rwa [List.length_map, List.length_map] at this

theorem determineWinners_spec (score : ScoreFn) (hands : List (Nat × List Card))
    (board : List Card) (winners : List Nat) (results : List HandResult)
    (h : determineWinners score hands board = .ok (winners, results)) :
    (∀ x ∈ winners, x ∈ hands.map Prod.fst) ∧
    (∀ r ∈ results, r.player_index ∈ hands.map Prod.fst) ∧
    (hands ≠ [] → winners ≠ []) := by
  unfold determineWinners at h
  split at h
  · rename_i hh
    rw [Except.ok.injEq, Prod.mk.injEq] at h
    refine ⟨?_, ?_, fun hc => absurd hh hc⟩
    · rw [← h.1]; intro x hx; simp at hx
    · rw [← h.2]; intro r hr; simp at hr
  · rename_i hh
    cases hc : compareHands score hands board with
    | error e => rw [hc] at h; simp at h
    | ok rs =>
        rw [hc] at h
        dsimp only at h
        obtain ⟨hsub, hlen⟩ := compareHands_spec score hands board rs hc
        cases rs with
        | nil =>
            exfalso
            rw [List.length_nil] at hlen
            exact hh (List.length_eq_zero.mp hlen.symm)
        | cons best rest =>
            rw [Except.ok.injEq, Prod.mk.injEq] at h
            refine ⟨?_, ?_, fun _ => ?_⟩
            · rw [← h.1]
              intro x hx
              simp only [List.mem_map] at hx
              obtain ⟨r, hr, rfl⟩ := hx
              exact hsub r (List.mem_of_mem_filter hr)
            · rw [← h.2]
              exact hsub
            · rw [← h.1]
              have hbm : best ∈ (best :: rest).filter
                  (fun r => r.hand_rank == best.hand_rank) :=
                List.mem_filter.mpr ⟨List.mem_cons_self _ _, by simp⟩
              intro hcon
              rw [List.map_eq_nil_iff] at hcon
              rw [hcon] at hbm
              simp at hbm

theorem potWinners_ne_nil (results : List HandResult) (winners : List Nat)
    (pot : Pot) (hw : winners ≠ []) :
    potWinners results winners pot ≠ [] := by
  unfold potWinners
  dsimp only
  cases hfil : results.filter
      (fun r => decide (r.player_index ∈ pot.eligible_players)) with
  | nil =>
      dsimp only
      cases winners with
      | nil => exact absurd rfl hw
      | cons x xs => simp
  | cons best rest =>
      dsimp only
      rw [List.filter_cons_of_pos (by simp)]
      simp

theorem potWinners_sub (results : List HandResult) (winners : List Nat)
    (pot : Pot) :
    ∀ x ∈ potWinners results winners pot,
      x ∈ winners ∨ x ∈ results.map HandResult.player_index := by
  unfold potWinners
  dsimp only
  intro x hx
  cases hfil : results.filter
      (fun r => decide (r.player_index ∈ pot.eligible_players)) with
  | nil =>
      rw [hfil] at hx
      exact Or.inl (List.take_subset _ _ hx)
  | cons best rest =>
      rw [hfil] at hx
      simp only [List.mem_map] at hx
      obtain ⟨r, hr, rfl⟩ := hx
      have hr1 : r ∈ best :: rest := List.mem_of_mem_filter hr
      rw [← hfil] at hr1
      exact Or.inr (List.mem_map_of_mem _ (List.mem_of_mem_filter hr1))

theorem gatherHands_fst (players : List PlayerState) :
    ∀ x ∈ (gatherHands players).map Prod.fst,
      ∃ p ∈ players, p.seat_index = x := by
  intro x hx
  obtain ⟨pr, hpr, rfl⟩ := List.mem_map.mp hx
  obtain ⟨p, hp, hf⟩ := List.mem_filterMap.mp hpr
  refine ⟨p, hp, ?_⟩
  split at hf
  · injection hf with hf
    rw [← hf]
  · cases hf

/-! ### Showdown, award and end-of-hand chip accounting -/

theorem showdownPreamble_facts (s : EngineState) (hinv : INV s) :
    (showdownPreamble s).players = s.players ∧
    potsTotal (showdownPreamble s).pm = potsTotal s.pm ∧
    (showdownPreamble s).pm.pots ≠ [] := by
  obtain ⟨hseat, hpne, hsync, hledpos, hallin1, hallin2, hG, hmr, hcb⟩ := hinv
  unfold showdownPreamble
  dsimp only
  refine ⟨rfl, ?_, ?_⟩
  · by_cases hA : s.all_in_amounts ≠ []
    · rw [if_pos hA]
      refine calculateSidePots_total _ _ _ hsync hledpos
        (fun pv hpv => (hallin1 pv hpv).1) ?_
      intro _
      obtain ⟨pv, hpv⟩ := List.exists_mem_of_ne_nil _ hA
      obtain ⟨c, hc, hcpos⟩ := hallin2 pv hpv
      obtain ⟨-, p, hp, -, hpf, hpe⟩ := hallin1 pv hpv
      refine ⟨(pv.1, c), dictGet_mem _ _ _ hc, ?_, hcpos⟩
      have hmem : p ∈ s.players := by
        rw [List.mem_iff_get?]; exact ⟨pv.1, hp⟩
      have hseatp : p.seat_index = pv.1 :=
        (seatConsistent_iff _).mp hseat pv.1 p hp
      have hfilter : p ∈ s.players.filter
          (fun q => !q.is_folded && !q.is_eliminated) :=
        List.mem_filter.mpr ⟨hmem, by rw [hpf, hpe]; rfl⟩
      rw [← hseatp]
      exact List.mem_map_of_mem _ hfilter
    · rw [if_neg hA]
  · by_cases hA : s.all_in_amounts ≠ []
    · rw [if_pos hA]; exact calculateSidePots_pots_ne_nil _ _ _ hpne
    · rw [if_neg hA]; exact hpne

theorem runShowdown_chips (score : ScoreFn) (s s' : EngineState)
    (r : ShowdownResult) (hinv : INV s)
    (hh : gatherHands s.players ≠ [])
    (h : runShowdown score s = .ok (s', r)) :
    chipsSum s'.players = chipsSum s.players + potsTotal s.pm := by
  have hseat : seatConsistent s.players := hinv.1
  obtain ⟨hpl, htot, hpne⟩ := showdownPreamble_facts s hinv
  unfold runShowdown at h
  dsimp only at h
  rw [hpl] at h
  rw [if_neg hh] at h
  cases hdw : determineWinners score (gatherHands s.players)
      (showdownPreamble s).community_cards with
  | error e => rw [hdw] at h; simp at h
  | ok pr =>
      obtain ⟨winners, results⟩ := pr
      rw [hdw] at h
      dsimp only at h
      rw [Except.ok.injEq, Prod.mk.injEq] at h
      obtain ⟨hs', -⟩ := h
      rw [← hs']
      obtain ⟨hwsub, hrsub, hwne⟩ :=
        determineWinners_spec score _ _ winners results hdw
      have hwinne : winners ≠ [] := hwne hh
      have hkeyrange : ∀ x : Nat, x ∈ (gatherHands s.players).map Prod.fst →
          x < s.players.length := by
        intro x hx
        obtain ⟨p, hp, rfl⟩ := gatherHands_fst s.players x hx
        obtain ⟨i, hi⟩ := List.mem_iff_get?.mp hp
        rw [(seatConsistent_iff _).mp hseat i p hi]
        exact (List.get?_eq_some.mp hi).choose
      have hkeys : ∀ kv ∈ distribute (showdownPreamble s).pm
          ((showdownPreamble s).pm.pots.map (potWinners results winners)),
          kv.1 < s.players.length := by
        intro kv hkv
        unfold distribute at hkv
        rcases distributeGo_fst (showdownPreamble s).pm.pots _ [] kv.1
            (List.mem_map_of_mem _ hkv) with h' | ⟨l, hl, hal⟩
        · simp at h'
        · obtain ⟨pot, hpot, rfl⟩ := List.mem_map.mp hl
          rcases potWinners_sub results winners pot kv.1 hal with h'' | h''
          · exact hkeyrange kv.1 (hwsub kv.1 h'')
          · obtain ⟨hr, hrm, hre⟩ := List.mem_map.mp h''
            rw [← hre]
            exact hkeyrange hr.player_index (hrsub hr hrm)
      have hwne2 : ∀ l ∈ (showdownPreamble s).pm.pots.map
          (potWinners results winners), l ≠ [] := by
        intro l hl
        obtain ⟨pot, hpot, rfl⟩ := List.mem_map.mp hl
        exact potWinners_ne_nil results winners pot hwinne
      dsimp only
      rw [applyWinnings_chipsSum _ _ hkeys]
      have hval : valSum (distribute (showdownPreamble s).pm
          ((showdownPreamble s).pm.pots.map (potWinners results winners))) =
          potsTotal (showdownPreamble s).pm := by
        unfold distribute
        rw [distributeGo_valSum _ _ _ (by rw [List.length_map]) hwne2]
        show valSum [] + _ = _
        rw [valSum_nil]
        simp [potsTotal]
      rw [hval, htot]

theorem award_chips (s s' : EngineState) (w : Nat) (hinv : INV s)
    (h : awardPotToLastPlayer s = .ok (s', w)) :
    chipsSum s'.players = chipsSum s.players + potsTotal s.pm := by
  have hseat : seatConsistent s.players := hinv.1
  unfold awardPotToLastPlayer at h
  dsimp only at h
  cases hact : s.players.filter (fun p => !p.is_folded && !p.is_eliminated) with
  | nil => rw [hact] at h; simp at h
  | cons winner rest =>
      cases rest with
      | nil =>
          rw [hact] at h
          dsimp only at h
          rw [Except.ok.injEq, Prod.mk.injEq] at h
          obtain ⟨hs', -⟩ := h
          rw [← hs']
          have hwmem : winner ∈ s.players :=
            List.mem_of_mem_filter (by rw [hact]; exact List.mem_cons_self _ _)
          have hwlt : winner.seat_index < s.players.length := by
            obtain ⟨i, hi⟩ := List.mem_iff_get?.mp hwmem
            rw [(seatConsistent_iff _).mp hseat i winner hi]
            exact (List.get?_eq_some.mp hi).choose
          have hkeys : ∀ kv ∈ distributeSimple s.pm [winner.seat_index],
              kv.1 < s.players.length := by
            intro kv hkv
            unfold distributeSimple distribute at hkv
            rcases distributeGo_fst s.pm.pots _ [] kv.1
                (List.mem_map_of_mem _ hkv) with h' | ⟨l, hl, hal⟩
            · simp at h'
            · have hrep : l = [winner.seat_index] := List.eq_of_mem_replicate hl
              rw [hrep, List.mem_singleton] at hal
              rw [hal]
              exact hwlt
          dsimp only
          rw [applyWinnings_chipsSum _ _ hkeys]
          have hval : valSum (distributeSimple s.pm [winner.seat_index]) =
              potsTotal s.pm := by
            unfold distributeSimple distribute
            rw [distributeGo_valSum _ _ _ (by rw [List.length_replicate]) ?_]
            · show valSum [] + _ = _
              rw [valSum_nil]
              simp [potsTotal]
            · intro l hl
              rw [List.eq_of_mem_replicate hl]
              simp
          rw [hval]
      | cons w2 rest2 => rw [hact] at h; simp at h

theorem endHand_chips (s : EngineState) :
    chipsSum (endHand s).players = chipsSum s.players := by
  show chipsSum (s.players.map _) = _
  refine chipsSum_map _ _ ?_
  intro p
  dsimp only
  split <;> rfl

/-- C1: chip conservation.  From any well-formed table, `start_hand`
moves the blinds into the pot without changing `Σ chips + Σ pot.amount`;
every legal in-hand transition (a validated `apply_action` or a phase
advance) leaves `Σ chips + Σ pot.amount` unchanged, both across a whole
trace and for any further single action; and after the hand is resolved —
by a showdown that finds live hole cards, or by `award_pot_to_last_player`
— followed by `end_hand()`, `Σ chips` equals its value immediately before
`start_hand()` was called. -/
theorem chip_conservation (shuf : Shuffler) (score : ScoreFn)
    (s0 s1 s2 : EngineState)
    (hwf : StartWF s0) (hstart : startHand shuf s0 = .ok s1)
    (htr : HandTrace s1 s2) :
    (chipsSum s1.players + potsTotal s1.pm = chipsSum s0.players) ∧
    (chipsSum s2.players + potsTotal s2.pm =
      chipsSum s1.players + potsTotal s1.pm) ∧
    (∀ (s' : EngineState) (a : Action) (seat : Nat) (ty : ActionType)
        (amt : Option Int) (ts : String),
      engineApplyAction s2 seat ty amt ts = .ok (s', a) →
      chipsSum s'.players + potsTotal s'.pm =
        chipsSum s2.players + potsTotal s2.pm) ∧
    (∀ (s3 : EngineState) (r : ShowdownResult), gatherHands s2.players ≠ [] →
      runShowdown score s2 = .ok (s3, r) →
      chipsSum (endHand s3).players = chipsSum s0.players) ∧
    (∀ (s3 : EngineState) (w : Nat), awardPotToLastPlayer s2 = .ok (s3, w) →
      chipsSum (endHand s3).players = chipsSum s0.players) := by
  obtain ⟨hinv1, hcons1⟩ := startHand_establishes shuf s0 s1 hwf hstart
  obtain ⟨hinv2, hcons2⟩ := trace_preserves s1 s2 htr hinv1
  refine ⟨hcons1, hcons2, ?_, ?_, ?_⟩
  · intro s' a seat ty amt ts h
    exact (engineApply_preserves s2 seat ty amt ts s' a hinv2 h).2
  · intro s3 r hh h
    rw [endHand_chips, runShowdown_chips score s2 s3 r hinv2 hh h]
    omega
  · intro s3 w h
    rw [endHand_chips, award_chips s2 s3 w hinv2 h]
    omega

/-- Witness for `chip_conservation`: on a fresh heads-up table with 1000
chips at each seat, run `start_hand`, let seat 1 fold, award the pot to
seat 0 and end the hand: the chip total is back to its pre-hand value. -/
theorem chip_conservation_witness :
    StartWF c1s0 ∧
    chipsSum (endHand c1s3).players = chipsSum c1s0.players := by
  have hwf : StartWF c1s0 := by
    unfold StartWF seatConsistent
    decide
  have hstart : startHand c1Shuf c1s0 = .ok c1s1 := rfl
  have hstep : engineApplyAction c1s1 1 ActionType.fold none "" =
      .ok (c1s2, ⟨1, ActionType.fold, some 0, ""⟩) := rfl
  have htr : HandTrace c1s1 c1s2 :=
    HandTrace.tail _ _ _ (HandTrace.refl c1s1)
      (HandStep.act c1s1 c1s2 1 ActionType.fold none ""
        ⟨1, ActionType.fold, some 0, ""⟩ hstep)
  have haward : awardPotToLastPlayer c1s2 = .ok (c1s3, 0) := rfl
  have h := chip_conservation c1Shuf c1Score c1s0 c1s1 c1s2 hwf hstart htr
  exact ⟨hwf, h.2.2.2.2 c1s3 0 haward⟩

end Holdem
